import Mathlib

/-!
The kqueue watcher of `notify`: event codec and watch table.

A shallow embedding of `watcher_kqueue.go`.  Machine words (`Event`, `uint32`)
are natural numbers below `2 ^ 32`; the package constants that live in other
files of the package (`Create`, `Write`, `NOTE_DELETE`, `NOTE_WRITE`, `ekind`)
are collected in `Consts` and passed as a parameter.
-/

namespace Kqueue

/-! ## Machine words -/

/-- An event mask: Go `type Event uint32`, a natural number below `2 ^ 32`. -/
abbrev Event := Nat

/-- Go unary `^x` on a `uint32`: exclusive or with the word of all ones. -/
def compl32 (x : Nat) : Nat := x ^^^ 0xFFFFFFFF

/-- Go `a &^ b` (bit clear, AND NOT) on `uint32`. -/
def bitClear (a b : Nat) : Nat := a &&& compl32 b

/-- A word that consists of exactly one of the 32 bits. -/
def IsBit (x : Nat) : Prop := ∃ i, i < 32 ∧ x = 2 ^ i

/-- The package-level constants that `watcher_kqueue.go` reads but does not define. -/
structure Consts where
  /-- The portable `Create` event. -/
  Create : Event
  /-- The portable `Write` event. -/
  Write : Event
  /-- The kernel flag `NOTE_DELETE` as an `Event`. -/
  NOTE_DELETE : Event
  /-- The kernel flag `NOTE_WRITE` as an `Event`. -/
  NOTE_WRITE : Event
  /-- The table `ekind` (kernel flag, portable event), in the order in which `range` visits it. -/
  ekind : List (Event × Event)

/-! ## Event codec -/

/-- One iteration of the loop of `mask`: `if e&n != 0 { o = (o &^ uint32(n)) | uint32(k) }`. -/
def maskStep (e : Event) (o : Nat) (kn : Event × Event) : Nat :=
  if e &&& kn.2 ≠ 0 then bitClear o kn.2 ||| kn.1 else o

/-- Go `mask`: converts requested events to the `kqueue` representation. -/
def mask (c : Consts) (e : Event) : Nat :=
  c.ekind.foldl (maskStep e) (bitClear e c.Create)

/-- One iteration of the loop of `unmask`. -/
def unmaskStep (o : Nat) (w : Event) (e : Event) (kn : Event × Event) : Event :=
  if o &&& kn.1 ≠ 0 then
    let e1 := if w &&& kn.1 ≠ 0 then e ||| kn.1 else e
    if w &&& kn.2 ≠ 0 then e1 ||| kn.2 else e1
  else e

/-- Go `unmask`: converts an event received from `kqueue` to a `notify.Event`, taking into
account the requested events `w`. -/
def unmask (c : Consts) (o : Nat) (w : Event) : Event :=
  c.ekind.foldl (unmaskStep o w) 0 ||| (o &&& w)

instance IsBit.decidable (x : Nat) : Decidable (IsBit x) := by
  unfold IsBit; infer_instance

/-- A concrete instance of the constants, laid out as on the BSDs: `NOTE_DELETE = 0x1`,
`NOTE_WRITE = 0x2`, `NOTE_RENAME = 0x20`, and the portable events above the kernel flags. -/
def sampleConsts : Consts where
  Create := 0x100
  Write := 0x400
  NOTE_DELETE := 0x1
  NOTE_WRITE := 0x2
  ekind := [(0x2, 0x400), (0x20, 0x800), (0x1, 0x200)]

/-! ## Watch table: data model -/

/-- The `error` values the watcher can return: the two package errors and errors of the
operating system (identified by their number). -/
inductive Err where
  /-- The package error `errNoNewWatch`. -/
  | noNewWatch
  /-- The package error `errNotWatched`. -/
  | notWatched
  /-- An error returned by a system call. -/
  | sys (errno : Nat)
  deriving DecidableEq, Repr

/-- What the watcher reads of an `os.FileInfo`: `Name()` and `IsDir()`. -/
structure FileInfo where
  /-- The result of `Name()`. -/
  name : String
  /-- The result of `IsDir()`. -/
  isDir : Bool
  deriving DecidableEq, Repr

/-- Go `type watched struct`: a watched file or directory. -/
structure watched where
  /-- The path of the watched file or directory. -/
  p : String
  /-- The file descriptor of the watched file or directory. -/
  fd : Int
  /-- Whether it is a directory. -/
  dir : Bool
  /-- The events watched directly. -/
  eDir : Event
  /-- The events watched indirectly. -/
  eNonDir : Event
  deriving DecidableEq, Repr

/-- A change submitted to the kernel queue with `syscall.Kevent`, filter `EVFILT_VNODE`. -/
inductive Change where
  /-- Flags `EV_ADD|EV_CLEAR` for descriptor `ident` with the given `Fflags`. -/
  | add (ident : Int) (fflags : Nat)
  /-- Flag `EV_DELETE` for descriptor `ident`. -/
  | delete (ident : Int)
  deriving DecidableEq, Repr

/-- The answers of the operating system.  Every answer is a function of the number of
answers given before (the field `tick` of the state), so that any sequence of outcomes can be
scripted; an error is an `errno`. -/
structure OS where
  /-- The result of `syscall.Kqueue()` in `init`. -/
  sysKqueue : Except Nat Int
  /-- The result of `os.Stat(p)` in `isdir`: whether `p` is a directory. -/
  stat : Nat → String → Except Nat Bool
  /-- The result of `syscall.Open(p, O_NONBLOCK|O_RDONLY, 0)`. -/
  sysOpen : Nat → String → Except Nat Int
  /-- The result of `syscall.Kevent` with a change list: `none` is success. -/
  sysKevent : Nat → Option Nat
  /-- The result of `os.Open(p)`, `Readdir(0)`, `Close()` in `walk`. -/
  readdir : Nat → String → Except Nat (List FileInfo)

/-- Go `type kqueue struct` together with the memory its pointers refer to and the record of
the system calls made so far.  A `*watched` is an address of `heap`; a map that is `none` is
a `nil` map. -/
structure kqueue where
  /-- The field `fd`, a pointer to the kqueue descriptor (`none` is `nil`). -/
  fd : Option Int
  /-- The field `idLkp`, from descriptors to `*watched`. -/
  idLkp : Option (List (Int × Nat))
  /-- The field `pthLkp`, from paths to `*watched`. -/
  pthLkp : Option (List (String × Nat))
  /-- Whether the stop channel `s` is non-nil (and so not yet closed). -/
  s : Bool
  /-- Whether the embedded `sync.Mutex` is held. -/
  locked : Bool
  /-- The `watched` records allocated so far, by address. -/
  heap : Nat → watched
  /-- The next free address of `heap`. -/
  next : Nat
  /-- The number of answers the operating system has given. -/
  tick : Nat
  /-- The descriptors returned by `syscall.Open`, latest first. -/
  opened : List Int
  /-- The descriptors passed to `syscall.Close`, latest first. -/
  closed : List Int
  /-- The changes submitted with `syscall.Kevent`, latest first. -/
  changes : List Change

/-- The outcome of a call: it returns a value and leaves a state, or it ends in a run-time
panic, or it waits for the mutex for ever. -/
inductive Res (α : Type) where
  /-- The call returns `a` and leaves the state `k`. -/
  | ret (a : α) (k : kqueue)
  /-- The call panics. -/
  | panic
  /-- The call blocks on `Lock`. -/
  | block

/-! ## Go maps as association lists -/

/-- The value stored under `key`, if any: Go `m[key]`. -/
def mget {κ : Type} [DecidableEq κ] : List (κ × Nat) → κ → Option Nat
  | [], _ => none
  | (k', v) :: rest, key => if k' = key then some v else mget rest key

/-- Go `delete(m, key)`. -/
def mdel {κ : Type} [DecidableEq κ] (m : List (κ × Nat)) (key : κ) : List (κ × Nat) :=
  m.filter (fun kv => decide (kv.1 ≠ key))

/-- Go `m[key] = v`. -/
def mset {κ : Type} [DecidableEq κ] (m : List (κ × Nat)) (key : κ) (v : Nat) :
    List (κ × Nat) :=
  (key, v) :: mdel m key

/-- Go `k.idLkp[fd]`; reading a `nil` map yields `nil`. -/
def lookupId (k : kqueue) (fd : Int) : Option Nat :=
  match k.idLkp with
  | none => none
  | some m => mget m fd

/-- Go `k.pthLkp[p]`; reading a `nil` map yields `nil`. -/
def lookupPth (k : kqueue) (p : String) : Option Nat :=
  match k.pthLkp with
  | none => none
  | some m => mget m p

/-! ## Watch table: operations -/

/-- The path name elements of a path: the pieces between the separators `/`. -/
def splitPath : List Char → List (List Char)
  | [] => [[]]
  | ch :: rest =>
    if ch = '/' then [] :: splitPath rest
    else
      match splitPath rest with
      | [] => [[ch]]
      | hd :: tl => (ch :: hd) :: tl

/-- One step of Go `filepath.Clean`: `out` holds the elements kept so far, the last one
first.  An empty element and `.` are dropped; `..` removes the element before it, is dropped
at the root, and is kept where there is nothing to remove. -/
def cleanStep (rooted : Bool) (out : List (List Char)) (el : List Char) : List (List Char) :=
  if el = [] ∨ el = ['.'] then out
  else if el = ['.', '.'] then
    match out with
    | [] => if rooted then [] else [el]
    | top :: below => if top = ['.', '.'] then el :: out else below
  else el :: out

/-- The elements of a path put together again, with one separator between two elements. -/
def joinElems : List (List Char) → List Char
  | [] => []
  | el :: rest =>
    match rest with
    | [] => el
    | _ :: _ => el ++ '/' :: joinElems rest

/-- Go `filepath.Clean` for the separator `/`: the shortest path equivalent to `path` by
purely lexical processing; the result ends in a separator only if it is the root, and the
empty path becomes `.`. -/
def Clean (path : String) : String :=
  let cs := path.data
  let rooted : Bool := decide (cs.head? = some '/')
  let out := ((splitPath cs).foldl (cleanStep rooted) []).reverse
  let res := if rooted then '/' :: joinElems out else joinElems out
  if res = [] then "." else String.mk res

/-- Go `filepath.Join(p, name)`: the elements from the first non-empty one on are joined
with the separator and the result is cleaned; two empty elements give the empty string. -/
def join (p name : String) : String :=
  if p ≠ "" then Clean (p ++ "/" ++ name)
  else if name ≠ "" then Clean name
  else ""

/-- Go `newWatcher` up to the start of the monitor goroutine: both maps made, the stop
channel made, `init` called; a failing `init` panics. -/
def newWatcher (os : OS) : Res Unit :=
  match os.sysKqueue with
  | .error _ => .panic
  | .ok fd => .ret () {
      fd := some fd, idLkp := some [], pthLkp := some [], s := true, locked := false,
      heap := fun _ => ⟨"", 0, false, 0, 0⟩, next := 0, tick := 0,
      opened := [], closed := [], changes := [] }

/-- Go `del`: closes the descriptor of `*a` and removes it from both maps (`delete` on a
`nil` map does nothing). -/
def del (k : kqueue) (a : Nat) : kqueue :=
  let w := k.heap a
  { k with
    closed := w.fd :: k.closed
    idLkp := k.idLkp.map (fun m => mdel m w.fd)
    pthLkp := k.pthLkp.map (fun m => mdel m w.p) }

/-- The statement `if direct { w.eDir |= e } else { w.eNonDir |= e }` of `singlewatch`. -/
def merge (w : watched) (e : Event) (direct : Bool) : watched :=
  if direct then { w with eDir := w.eDir ||| e } else { w with eNonDir := w.eNonDir ||| e }

/-- The statement `if direct { w.eDir = 0 } else { w.eNonDir = 0 }` of `singleunwatch`. -/
def clearMask (w : watched) (direct : Bool) : watched :=
  if direct then { w with eDir := 0 } else { w with eNonDir := 0 }

/-- The second half of Go `singlewatch`, from `if direct` on, for the record at address `a`;
`ok` is the result of the map lookup at the start of `singlewatch`. -/
def subscribe (c : Consts) (os : OS) (k : kqueue) (a : Nat) (e : Event) (direct ok : Bool) :
    Res (Option Err) :=
  let w := merge (k.heap a) e direct
  let k1 := { k with heap := Function.update k.heap a w }
  match k1.fd with
  | none => .panic
  | some _ =>
    let k2 := { k1 with
      tick := k1.tick + 1
      changes := .add w.fd (mask c (w.eDir ||| w.eNonDir)) :: k1.changes }
    match os.sysKevent k1.tick with
    | some errno => .ret (some (.sys errno)) k2
    | none =>
      if ok then .ret (some .noNewWatch) k2
      else
        match k2.idLkp, k2.pthLkp with
        | some im, some pm =>
          .ret none { k2 with idLkp := some (mset im w.fd a), pthLkp := some (mset pm w.p a) }
        | _, _ => .panic

/-- Go `singlewatch`: starts to watch the file or directory `p`. -/
def singlewatch (c : Consts) (os : OS) (k : kqueue) (p : String) (e : Event)
    (direct dir : Bool) : Res (Option Err) :=
  match lookupPth k p with
  | some a => subscribe c os k a e direct true
  | none =>
    match os.sysOpen k.tick p with
    | .error errno => .ret (some (.sys errno)) { k with tick := k.tick + 1 }
    | .ok fd =>
      let k1 := { k with
        tick := k.tick + 1
        opened := fd :: k.opened
        heap := Function.update k.heap k.next ⟨p, fd, dir, 0, 0⟩
        next := k.next + 1 }
      subscribe c os k1 k.next e direct false

/-- Go `singleunwatch`: stops watching the file or directory `p`. -/
def singleunwatch (c : Consts) (os : OS) (k : kqueue) (p : String) (direct : Bool) :
    Res (Option Err) :=
  match lookupPth k p with
  | none => .ret (some .notWatched) k
  | some a =>
    let w := clearMask (k.heap a) direct
    let k1 := { k with heap := Function.update k.heap a w }
    match k1.fd with
    | none => .panic
    | some _ =>
      let k2 := { k1 with tick := k1.tick + 1, changes := .delete w.fd :: k1.changes }
      match os.sysKevent k1.tick with
      | some errno => .ret (some (.sys errno)) k2
      | none =>
        if w.eNonDir &&& w.eDir ≠ 0 then
          singlewatch c os k2 p (w.eNonDir ||| w.eDir) (w.eNonDir == 0) w.dir
        else .ret none (del k2 a)

/-- The loop of Go `walk`: runs `f` on each entry and stops at the first error. -/
def walkLoop (f : kqueue → FileInfo → Res (Option Err)) :
    kqueue → List FileInfo → Res (Option Err)
  | k, [] => .ret none k
  | k, fi :: rest =>
    match f k fi with
    | .ret none k1 => walkLoop f k1 rest
    | r => r

/-- Go `walk`: runs `f` on each file of the directory `p`. -/
def walk (os : OS) (k : kqueue) (p : String) (f : kqueue → FileInfo → Res (Option Err)) :
    Res (Option Err) :=
  match os.readdir k.tick p with
  | .error errno => .ret (some (.sys errno)) { k with tick := k.tick + 1 }
  | .ok ls => walkLoop f { k with tick := k.tick + 1 } ls

/-- Go `watch`. -/
def watch (c : Consts) (os : OS) (k : kqueue) (p : String) (e : Event) (isdir : Bool) :
    Res (Option Err) :=
  let children (k1 : kqueue) : Res (Option Err) :=
    if isdir then
      walk os k1 p (fun k2 fi =>
        match singlewatch c os k2 (join p fi.name) e false fi.isDir with
        | .ret (some err) k3 => if err ≠ .noNewWatch then .ret (some err) k3 else .ret none k3
        | r => r)
    else .ret none k1
  match singlewatch c os k p e true isdir with
  | .ret (some err) k1 => if err ≠ .noNewWatch then .ret none k1 else children k1
  | .ret none k1 => children k1
  | r => r

/-- Go `unwatch`. -/
def unwatch (c : Consts) (os : OS) (k : kqueue) (p : String) (isdir : Bool) :
    Res (Option Err) :=
  if isdir then
    match walk os k p (fun k1 fi =>
        if !fi.isDir then singleunwatch c os k1 (join p fi.name) false else .ret none k1) with
    | .ret none k1 => singleunwatch c os k1 p true
    | r => r
  else singleunwatch c os k p true

/-- Go `Watch`: `isdir`, then `watch` under the mutex. -/
def Watch (c : Consts) (os : OS) (k : kqueue) (p : String) (e : Event) : Res (Option Err) :=
  match os.stat k.tick p with
  | .error errno => .ret (some (.sys errno)) { k with tick := k.tick + 1 }
  | .ok b =>
    if k.locked then .block
    else
      match watch c os { k with tick := k.tick + 1, locked := true } p e b with
      | .ret err k1 => .ret err { k1 with locked := false }
      | r => r

/-- Go `Unwatch`: `isdir`, then `unwatch` under the mutex. -/
def Unwatch (c : Consts) (os : OS) (k : kqueue) (p : String) : Res (Option Err) :=
  match os.stat k.tick p with
  | .error errno => .ret (some (.sys errno)) { k with tick := k.tick + 1 }
  | .ok b =>
    if k.locked then .block
    else
      match unwatch c os { k with tick := k.tick + 1, locked := true } p b with
      | .ret err k1 => .ret err { k1 with locked := false }
      | r => r

/-- The value a call returned, if it returned. -/
def Res.val {α : Type} : Res α → Option α
  | .ret a _ => some a
  | _ => none

/-- The state a call left, if it returned. -/
def Res.state {α : Type} : Res α → Option kqueue
  | .ret _ k => some k
  | _ => none

/-- The record the path index holds for `p`, if any. -/
def entryAt (k : kqueue) (p : String) : Option watched :=
  (lookupPth k p).map k.heap

/-- The record the descriptor index holds for `fd`, if any. -/
def entryOf (k : kqueue) (fd : Int) : Option watched :=
  (lookupId k fd).map k.heap

/-- An operating system in which every call succeeds, `syscall.Open` returns `fd`, `p` is a
directory if `isdir`, and every directory lists `ls`. -/
def okOS (fd : Int) (isdir : Bool) (ls : List FileInfo) : OS where
  sysKqueue := .ok 3
  stat := fun _ _ => .ok isdir
  sysOpen := fun _ _ => .ok fd
  sysKevent := fun _ => none
  readdir := fun _ _ => .ok ls

/-- The state of a new watcher whose kqueue descriptor is `3`. -/
def k0 : kqueue where
  fd := some 3
  idLkp := some []
  pthLkp := some []
  s := true
  locked := false
  heap := fun _ => ⟨"", 0, false, 0, 0⟩
  next := 0
  tick := 0
  opened := []
  closed := []
  changes := []

/-! ## Runs of the watch table -/

/-- The two indexes agree: an address stored under a descriptor is stored under the path of
its record and conversely, each under the key its record names; and every stored address
has been allocated. -/
structure Consistent (k : kqueue) : Prop where
  /-- From the descriptor index to the path index. -/
  id_pth : ∀ fd a, lookupId k fd = some a →
    (k.heap a).fd = fd ∧ lookupPth k (k.heap a).p = some a
  /-- From the path index to the descriptor index. -/
  pth_id : ∀ p a, lookupPth k p = some a →
    (k.heap a).p = p ∧ lookupId k (k.heap a).fd = some a
  /-- Stored addresses are below the next free address. -/
  bound : ∀ p a, lookupPth k p = some a → a < k.next

/-- The states a new watcher reaches by calls of `singlewatch`, `singleunwatch` and `del`
that return, whatever the system calls answer, as long as `syscall.Open` never returns a
descriptor that a table entry still holds; `del` is called, as in the source, on a record
that was looked up in the table. -/
inductive Reach (c : Consts) : kqueue → Prop where
  /-- The state `newWatcher` leaves. -/
  | init (os : OS) (k : kqueue) : newWatcher os = .ret () k → Reach c k
  /-- A call of `singlewatch`. -/
  | stepWatch (os : OS) (k k' : kqueue) (p : String) (e : Event) (direct dir : Bool)
      (r : Option Err) : Reach c k →
      (∀ fd, os.sysOpen k.tick p = .ok fd → lookupId k fd = none) →
      singlewatch c os k p e direct dir = .ret r k' → Reach c k'
  /-- A call of `singleunwatch`. -/
  | stepUnwatch (os : OS) (k k' : kqueue) (p : String) (direct : Bool) (r : Option Err) :
      Reach c k → singleunwatch c os k p direct = .ret r k' → Reach c k'
  /-- A call of `del` on the record stored under a descriptor. -/
  | stepDel (k : kqueue) (fd : Int) (a : Nat) :
      Reach c k → lookupId k fd = some a → Reach c (del k a)

/-- The state after `singlewatch("a", 0x400, direct, file)` on the new watcher `k0`, with
every system call succeeding and `syscall.Open` returning `4`. -/
def watchedOnce : kqueue :=
  ((singlewatch sampleConsts (okOS 4 false []) k0 "a" 0x400 true false).state).getD k0

/-- Every record stored in either index has a mask that is not zero; besides, every stored
address is allocated and stored under the key its record names. -/
structure NoEmpty (k : kqueue) : Prop where
  /-- A record stored under a descriptor names that descriptor. -/
  key_id : ∀ fd a, lookupId k fd = some a → (k.heap a).fd = fd
  /-- A record stored under a path names that path. -/
  key_pth : ∀ p a, lookupPth k p = some a → (k.heap a).p = p
  /-- Addresses in the descriptor index are allocated. -/
  bound_id : ∀ fd a, lookupId k fd = some a → a < k.next
  /-- Addresses in the path index are allocated. -/
  bound_pth : ∀ p a, lookupPth k p = some a → a < k.next
  /-- No record in the descriptor index has both masks zero. -/
  nz_id : ∀ fd a, lookupId k fd = some a → (k.heap a).eDir ≠ 0 ∨ (k.heap a).eNonDir ≠ 0
  /-- No record in the path index has both masks zero. -/
  nz_pth : ∀ p a, lookupPth k p = some a → (k.heap a).eDir ≠ 0 ∨ (k.heap a).eNonDir ≠ 0

/-- The states a new watcher reaches by calls of `singlewatch` with a mask that is not zero
and calls of `singleunwatch` that return `nil` or `errNotWatched`, whatever the other system
calls answer. -/
inductive ReachNonZero (c : Consts) : kqueue → Prop where
  /-- The state `newWatcher` leaves. -/
  | init (os : OS) (k : kqueue) : newWatcher os = .ret () k → ReachNonZero c k
  /-- A call of `singlewatch` with a mask that is not zero. -/
  | stepWatch (os : OS) (k k' : kqueue) (p : String) (e : Event) (direct dir : Bool)
      (r : Option Err) : ReachNonZero c k → e ≠ 0 →
      singlewatch c os k p e direct dir = .ret r k' → ReachNonZero c k'
  /-- A call of `singleunwatch` that did not fail in the kernel. -/
  | stepUnwatch (os : OS) (k k' : kqueue) (p : String) (direct : Bool) (r : Option Err) :
      ReachNonZero c k → singleunwatch c os k p direct = .ret r k' →
      r = none ∨ r = some .notWatched → ReachNonZero c k'

/-- The outcome C6 describes for `Watch(p, x)` followed by `Watch(p, y)` from the state `k`:
both calls return `nil`, the `singlewatch` call inside the second reports `errNoNewWatch`,
and the final table has exactly one record for `p`, in both indexes, with direct mask `m`
and indirect mask `0`; one descriptor was opened. -/
def MergedAfter (c : Consts) (os : OS) (k : kqueue) (p : String) (x y m : Event) : Prop :=
  ∃ (k1 k2 kx : kqueue) (a : Nat) (fd : Int),
    Watch c os k p x = .ret none k1 ∧ Watch c os k1 p y = .ret none k2 ∧
    singlewatch c os { k1 with tick := k1.tick + 1, locked := true } p y true false
      = .ret (some .noNewWatch) kx ∧
    lookupPth k2 p = some a ∧ lookupId k2 fd = some a ∧
    k2.heap a = ⟨p, fd, false, m, 0⟩ ∧
    (∀ p' a', lookupPth k2 p' = some a' → (k2.heap a').p = p → a' = a) ∧
    (∀ fd' a', lookupId k2 fd' = some a' → (k2.heap a').p = p → a' = a) ∧
    k2.opened = fd :: k.opened ∧ k2.locked = false

/-- The state after `singlewatch("a", 0x400, direct, file)` and then
`singlewatch("a", 0x200, indirect, file)` on the new watcher `k0`: one record for `"a"` with
`eDir = 0x400` and `eNonDir = 0x200`. -/
def watchedBoth : kqueue :=
  ((singlewatch sampleConsts (okOS 4 false []) watchedOnce "a" 0x200 false false).state).getD k0

/-- The state after `singlewatch("d/a", 0x400, indirect, file)` on the new watcher `k0`: one
record, for the file `a` of the directory `d`, watched indirectly only. -/
def watchedChild : kqueue :=
  ((singlewatch sampleConsts (okOS 4 false []) k0 (join "d" "a") 0x400 false false).state).getD k0

/-- An operating system in which `syscall.Open` fails with `ENOENT` and every other call
succeeds; no path is a directory. -/
def failOpenOS : OS where
  sysKqueue := .ok 3
  stat := fun _ _ => .ok false
  sysOpen := fun _ _ => .error 2
  sysKevent := fun _ => none
  readdir := fun _ _ => .ok []

/-- An operating system in which `syscall.Open` returns `4`, `syscall.Kevent` fails with
`ENOMEM` and every other call succeeds; no path is a directory. -/
def failKeventOS : OS where
  sysKqueue := .ok 3
  stat := fun _ _ => .ok false
  sysOpen := fun _ _ => .ok 4
  sysKevent := fun _ => some 12
  readdir := fun _ _ => .ok []

/-! ## The monitor loop and `Close` -/

/-- Modelled from the spec: the type `event`, which `watcher_kqueue.go` builds with four
positional fields but which is declared in another file of the package; a portable event has
a directory flag, a path, a portable event mask and an optional raw notification (here the
descriptor and the flags of the `Kevent_t` it points to). -/
structure event where
  /-- Whether the event concerns a directory. -/
  isdir : Bool
  /-- The path the event concerns. -/
  p : String
  /-- The portable event mask. -/
  e : Event
  /-- The raw notification, `nil` for a synthesized event. -/
  kq : Option (Int × Nat)
  deriving DecidableEq, Repr

/-- The loop of Go `walk` for a closure that also appends to the captured slice `evn`. -/
def walkLoopEvn (f : kqueue → List event → FileInfo → Res (Option Err × List event)) :
    kqueue → List event → List FileInfo → Res (Option Err × List event)
  | k, evn, [] => .ret (none, evn) k
  | k, evn, fi :: rest =>
    match f k evn fi with
    | .ret (none, evn1) k1 => walkLoopEvn f k1 evn1 rest
    | r => r

/-- Go `walk` for a closure that also appends to the captured slice `evn`. -/
def walkEvn (os : OS) (k : kqueue) (p : String) (evn : List event)
    (f : kqueue → List event → FileInfo → Res (Option Err × List event)) :
    Res (Option Err × List event) :=
  match os.readdir k.tick p with
  | .error errno => .ret (some (.sys errno), evn) { k with tick := k.tick + 1 }
  | .ok ls => walkLoopEvn f { k with tick := k.tick + 1 } evn ls

/-- The closure `monitor` passes to `walk` for the directory record at address `a`: it
registers the child with the direct mask of the directory and, when the child is new and that
mask holds `Create`, appends a `Create` event; an error other than `errNoNewWatch` panics. -/
def monitorChild (c : Consts) (os : OS) (a : Nat) (k : kqueue) (evn : List event)
    (fi : FileInfo) : Res (Option Err × List event) :=
  let p := join (k.heap a).p fi.name
  match singlewatch c os k p (k.heap a).eDir false fi.isDir with
  | .ret (some err) k1 => if err ≠ .noNewWatch then .panic else .ret (none, evn) k1
  | .ret none k1 =>
    if (k1.heap a).eDir &&& c.Create ≠ 0 then
      .ret (none, evn ++ [⟨fi.isDir, p, c.Create, none⟩]) k1
    else .ret (none, evn) k1
  | .panic => .panic
  | .block => .block

/-- The end of the body of the loop of `monitor`: `del(w)` if the flags hold `NOTE_DELETE`,
then `Unlock`; `evn` is the queue the next iteration sends. -/
def monitorEnd (c : Consts) (k : kqueue) (a : Nat) (fflags : Nat) (evn : List event) :
    Res (List event) :=
  let k1 := if fflags &&& c.NOTE_DELETE ≠ 0 then del k a else k
  .ret evn { k1 with locked := false }

/-- One iteration of the loop of Go `monitor`, from `evn = make([]event, 0)` to the end of
the body; `rd` is what `syscall.Kevent` reads: an error, no notification, or the descriptor
and the flags of one notification.  The result is the queue `evn` that the next iteration
sends.  The `select` on the stop channel takes its `default` branch, since `Close` closes the
channel and sets the field to `nil` in one critical section; the messages written to the
standard error, and the map `hist` that only selects among them, are left out. -/
def monitorIter (c : Consts) (os : OS) (k : kqueue) (rd : Except Nat (Option (Int × Nat))) :
    Res (List event) :=
  match k.fd with
  | none => .panic
  | some _ =>
    match rd with
    | .error _ => .ret [] k
    | .ok none => .ret [] k
    | .ok (some (ident, fflags)) =>
      if k.locked then .block
      else
        let k1 := { k with locked := true }
        match lookupId k1 ident with
        | none => .ret [] k1
        | some a =>
          let w := k1.heap a
          let o := unmask c fflags (w.eDir ||| w.eNonDir)
          if w.dir then
            if fflags &&& c.NOTE_DELETE ≠ 0 then
              .ret [⟨w.dir, w.p, o &&& compl32 c.Write &&& compl32 c.NOTE_WRITE,
                  some (ident, fflags)⟩]
                { del k1 a with locked := false }
            else if fflags &&& c.NOTE_WRITE ≠ 0 then
              match walkEvn os k1 w.p [] (monitorChild c os a) with
              | .ret (none, evn) k2 => monitorEnd c k2 a fflags evn
              | .ret (some _, _) _ => .panic
              | .panic => .panic
              | .block => .block
            else monitorEnd c k1 a fflags []
          else monitorEnd c k1 a fflags [⟨w.dir, w.p, o, some (ident, fflags)⟩]

/-- Go `Close`: closes all still open file descriptors and the kqueue. -/
def Close (k : kqueue) : Res (Option Err) :=
  if k.locked then .block
  else
    let k1 := { k with locked := true }
    let k2 := if k1.s then { k1 with s := false } else k1
    let k3 := (k2.idLkp.getD []).foldl
      (fun st kv => { st with closed := (st.heap kv.2).fd :: st.closed }) k2
    let k4 := match k3.fd with
      | some q => { k3 with closed := q :: k3.closed, fd := none }
      | none => k3
    .ret none { k4 with idLkp := none, pthLkp := none, locked := false }

/-- Whether a call waits for the mutex for ever. -/
def Res.blocked {α : Type} : Res α → Bool
  | .block => true
  | _ => false

/-- The state after one iteration of `monitor` on the new watcher `k0` that reads a
notification for descriptor `7`, which no entry holds. -/
def staleState : kqueue :=
  ((monitorIter sampleConsts (okOS 4 false []) k0 (.ok (some (7, 0x2)))).state).getD k0

/-- The state after `singlewatch("d", 0x500, direct, directory)` on the new watcher `k0`,
with every system call succeeding and `syscall.Open` returning `4`: one record, for the
directory `d`, watched directly for `Create` and `Write`. -/
def watchedDir : kqueue :=
  ((singlewatch sampleConsts (okOS 4 true []) k0 "d" 0x500 true true).state).getD k0

/-- An operating system in which every call succeeds, every path that is asked about is a
directory that lists `ls`, and `syscall.Open` returns a descriptor not returned before. -/
def dirOS (ls : List FileInfo) : OS where
  sysKqueue := .ok 3
  stat := fun _ _ => .ok true
  sysOpen := fun t _ => .ok (Int.ofNat t + 10)
  sysKevent := fun _ => none
  readdir := fun _ _ => .ok ls

/-- The state after `Watch("d", 0x400)` on the new watcher `k0`, where `d` is a directory
that lists the subdirectory `s` and the file `f`: `d` is watched directly, `d/s` and `d/f`
indirectly. -/
def watchedTree : kqueue :=
  ((Watch sampleConsts (dirOS [⟨"s", true⟩, ⟨"f", false⟩]) k0 "d" 0x400).state).getD k0

/-! ## Registration passes -/

/-- The path index stores every record under the path the record names, at an allocated
address. -/
structure PathKeyed (k : kqueue) : Prop where
  /-- A record stored under a path names that path. -/
  key : ∀ q a, lookupPth k q = some a → (k.heap a).p = q
  /-- Stored addresses are below the next free address. -/
  bound : ∀ q a, lookupPth k q = some a → a < k.next

/-- The watcher has not been closed: the kqueue descriptor and both maps are not `nil`. -/
structure Live (k : kqueue) : Prop where
  /-- The kqueue descriptor is set. -/
  fd : ∃ kq, k.fd = some kq
  /-- The descriptor index is a made map. -/
  id : ∃ im, k.idLkp = some im
  /-- The path index is a made map. -/
  pth : ∃ pm, k.pthLkp = some pm

/-- An operating system in which `syscall.Open` and `syscall.Kevent` always succeed. -/
structure AllOk (os : OS) : Prop where
  /-- Every `syscall.Open` returns a descriptor. -/
  opens : ∀ t q, ∃ fd, os.sysOpen t q = .ok fd
  /-- Every `syscall.Kevent` with a change succeeds. -/
  kevents : ∀ t, os.sysKevent t = none

/-- What a successful `singlewatch(q, e, direct, dir)` that returned `r` did to the table,
from the state `k` to the state `k'`. -/
structure Registered (k k' : kqueue) (q : String) (e : Event) (direct dir : Bool)
    (r : Option Err) : Prop where
  /-- The path index is still keyed by path. -/
  keyed : PathKeyed k'
  /-- The watcher is still open. -/
  live : Live k'
  /-- The lock is as before. -/
  locked : k'.locked = k.locked
  /-- No address is freed. -/
  next_le : k.next ≤ k'.next
  /-- Other paths are stored as before. -/
  others : ∀ q', q' ≠ q → lookupPth k' q' = lookupPth k q'
  /-- Records other than that of `q` are as before. -/
  heap_same : ∀ x, x < k.next → lookupPth k q ≠ some x → k'.heap x = k.heap x
  /-- No record changes its path or its directory flag, nor its direct mask when the
  registration is indirect. -/
  stable : ∀ x, x < k.next → (k'.heap x).p = (k.heap x).p ∧ (k'.heap x).dir = (k.heap x).dir ∧
    (direct = false → (k'.heap x).eDir = (k.heap x).eDir)
  /-- A path that had a record keeps it, with the mask merged, and `r` is `errNoNewWatch`. -/
  old : ∀ a, lookupPth k q = some a →
    r = some .noNewWatch ∧ lookupPth k' q = some a ∧ k'.heap a = merge (k.heap a) e direct
  /-- A path that had no record gets a new one, and `r` is `nil`. -/
  new : lookupPth k q = none →
    r = none ∧ ∃ fd, lookupPth k' q = some k.next ∧
      k'.heap k.next = merge ⟨q, fd, dir, 0, 0⟩ e direct

/-- What a pass that calls `singlewatch(join(P, name), e, indirect, isDir)` for every entry
of the listing `ls`, each call succeeding, did to the table, from the state `k` to the state
`k'`. -/
structure ChildrenRegistered (k k' : kqueue) (P : String) (e : Event) (ls : List FileInfo) :
    Prop where
  /-- The path index is still keyed by path. -/
  keyed : PathKeyed k'
  /-- The watcher is still open. -/
  live : Live k'
  /-- The lock is as before. -/
  locked : k'.locked = k.locked
  /-- No address is freed. -/
  next_le : k.next ≤ k'.next
  /-- No record changes its path, its directory flag or its direct mask. -/
  stable : ∀ x, x < k.next → (k'.heap x).p = (k.heap x).p ∧ (k'.heap x).dir = (k.heap x).dir ∧
    (k'.heap x).eDir = (k.heap x).eDir
  /-- Paths that are not a child of the listing have the entry they had, or none. -/
  frame : ∀ q, (∀ fi ∈ ls, q ≠ join P fi.name) → entryAt k' q = entryAt k q
  /-- A child that had no entry has a new one, with the mask `e` as its indirect mask. -/
  fresh : ∀ fi ∈ ls, entryAt k (join P fi.name) = none →
    ∃ fd, entryAt k' (join P fi.name) = some (merge ⟨join P fi.name, fd, fi.isDir, 0, 0⟩ e false)
  /-- A child that had an entry keeps it, with `e` merged into its indirect mask. -/
  known : ∀ fi ∈ ls, ∀ w, entryAt k (join P fi.name) = some w →
    entryAt k' (join P fi.name) = some (merge w e false)

/-- The `Create` events one pass of `monitor` over the listing `ls` of the directory `P`,
whose direct mask is `E`, queues: one for each child that has no entry in `k`, in the order
of the listing, if `E` holds `Create`, and none otherwise. -/
def createEvents (c : Consts) (k : kqueue) (P : String) (E : Event) (ls : List FileInfo) :
    List event :=
  if E &&& c.Create ≠ 0 then
    (ls.filter (fun fi => (lookupPth k (join P fi.name)).isNone)).map
      (fun fi => ⟨fi.isDir, join P fi.name, c.Create, none⟩)
  else []

/-- The state after `Watch("d", 0x500)` on the new watcher `k0`, where `d` is a directory
that lists the subdirectory `s`: `d` is watched directly for `Create` and `Write`, and `d/s`
only indirectly, as a child of `d`. -/
def watchedSub : kqueue :=
  ((Watch sampleConsts (dirOS [⟨"s", true⟩]) k0 "d" 0x500).state).getD k0

/-- The state after `singlewatch("d/f", 0x400, indirect, file)` on `watchedDir`: the
directory `d` is watched directly and its file `f` indirectly. -/
def watchedPair : kqueue :=
  ((singlewatch sampleConsts (dirOS []) watchedDir "d/f" 0x400 false false).state).getD k0

/-! ## Bit-level facts -/

theorem testBit_compl32 (x i : Nat) :
    (compl32 x).testBit i = xor (x.testBit i) (decide (i < 32)) := by
  have h : (0xFFFFFFFF : Nat) = 2 ^ 32 - 1 := by norm_num
  unfold compl32
  rw [h, Nat.testBit_xor, Nat.testBit_two_pow_sub_one]

theorem testBit_bitClear (a b i : Nat) (hi : i < 32) :
    (bitClear a b).testBit i = (a.testBit i && !b.testBit i) := by
  unfold bitClear
  rw [Nat.testBit_and, testBit_compl32]
  simp [hi]

theorem testBit_of_lt {x i : Nat} (hx : x < 2 ^ 32) (h : x.testBit i = true) : i < 32 := by
  by_contra hge
  have hle : 2 ^ 32 ≤ 2 ^ i := Nat.pow_le_pow_right (by norm_num) (Nat.le_of_not_lt hge)
  have := Nat.testBit_lt_two_pow (Nat.lt_of_lt_of_le hx hle)
  rw [this] at h
  exact Bool.noConfusion h

theorem and_ne_zero_iff_exists (a b : Nat) :
    a &&& b ≠ 0 ↔ ∃ i, a.testBit i = true ∧ b.testBit i = true := by
  constructor
  · intro h
    obtain ⟨i, hi⟩ := Nat.ne_zero_implies_bit_true h
    rw [Nat.testBit_and] at hi
    exact ⟨i, by simpa using hi⟩
  · rintro ⟨i, ha, hb⟩ h0
    have : (a &&& b).testBit i = true := by rw [Nat.testBit_and, ha, hb]; rfl
    rw [h0] at this
    simp at this

theorem and_two_pow_ne_zero (a j : Nat) : a &&& 2 ^ j ≠ 0 ↔ a.testBit j = true := by
  rw [and_ne_zero_iff_exists]
  constructor
  · rintro ⟨i, ha, hb⟩
    rw [Nat.testBit_two_pow] at hb
    have : j = i := by simpa using hb
    rw [this]; exact ha
  · intro h
    exact ⟨j, h, Nat.testBit_two_pow_self⟩

theorem IsBit.lt {x : Nat} (h : IsBit x) : x < 2 ^ 32 := by
  obtain ⟨i, hi, rfl⟩ := h
  exact Nat.pow_lt_pow_right (by norm_num) hi

theorem IsBit.testBit_ne {x y : Nat} (hx : IsBit x) (hy : IsBit y) (hne : x ≠ y) (i : Nat)
    (h : x.testBit i = true) : y.testBit i = false := by
  obtain ⟨a, _, rfl⟩ := hx
  obtain ⟨b, _, rfl⟩ := hy
  rw [Nat.testBit_two_pow] at h
  have hai : a = i := by simpa using h
  rw [Nat.testBit_two_pow]
  have : b ≠ i := by
    intro hbi
    apply hne
    rw [hai, hbi]
  simpa using this

/-! ## The loop of `mask` -/

theorem maskFold_keep (e i : Nat) (hi : i < 32) :
    ∀ (l : List (Event × Event)) (o : Nat), o.testBit i = true →
      (∀ kn ∈ l, e &&& kn.2 ≠ 0 → kn.2.testBit i = false) →
      (l.foldl (maskStep e) o).testBit i = true := by
  intro l
  induction l with
  | nil => intro o ho _; simpa using ho
  | cons kn rest ih =>
    intro o ho hv
    rw [List.foldl_cons]
    apply ih
    · unfold maskStep
      split
      · next hact =>
        rw [Nat.testBit_or, testBit_bitClear _ _ _ hi, ho, hv kn (List.mem_cons_self _ _) hact]
        rfl
      · exact ho
    · intro kn' hmem
      exact hv kn' (List.mem_cons_of_mem _ hmem)

theorem maskFold_key (e i : Nat) (hi : i < 32) :
    ∀ (l : List (Event × Event)) (o : Nat) (kn : Event × Event), kn ∈ l → e &&& kn.2 ≠ 0 →
      kn.1.testBit i = true →
      (∀ kn' ∈ l, e &&& kn'.2 ≠ 0 → kn'.2.testBit i = false) →
      (l.foldl (maskStep e) o).testBit i = true := by
  intro l
  induction l with
  | nil => intro o kn hmem; simp at hmem
  | cons hd rest ih =>
    intro o kn hmem hact hk hv
    rw [List.foldl_cons]
    have hv' : ∀ kn' ∈ rest, e &&& kn'.2 ≠ 0 → kn'.2.testBit i = false :=
      fun kn' hm => hv kn' (List.mem_cons_of_mem _ hm)
    rcases List.mem_cons.mp hmem with heq | hin
    · subst heq
      apply maskFold_keep e i hi rest _ _ hv'
      unfold maskStep
      rw [if_pos hact, Nat.testBit_or, hk]
      simp
    · exact ih _ kn hin hact hk hv'

theorem maskFold_clear (e i : Nat) :
    ∀ (l : List (Event × Event)) (o : Nat), o.testBit i = false →
      (∀ kn ∈ l, e &&& kn.2 ≠ 0 → kn.1.testBit i = false) →
      (l.foldl (maskStep e) o).testBit i = false := by
  intro l
  induction l with
  | nil => intro o ho _; simpa using ho
  | cons kn rest ih =>
    intro o ho hk
    rw [List.foldl_cons]
    apply ih
    · unfold maskStep
      split
      · next hact =>
        unfold bitClear
        rw [Nat.testBit_or, Nat.testBit_and, ho, hk kn (List.mem_cons_self _ _) hact]
        rfl
      · exact ho
    · intro kn' hmem
      exact hk kn' (List.mem_cons_of_mem _ hmem)

theorem maskFold_value (e i : Nat) (hi : i < 32) :
    ∀ (l : List (Event × Event)) (o : Nat) (kn : Event × Event), kn ∈ l → e &&& kn.2 ≠ 0 →
      kn.2.testBit i = true →
      (∀ kn' ∈ l, e &&& kn'.2 ≠ 0 → kn'.1.testBit i = false) →
      (l.foldl (maskStep e) o).testBit i = false := by
  intro l
  induction l with
  | nil => intro o kn hmem; simp at hmem
  | cons hd rest ih =>
    intro o kn hmem hact hn hk
    rw [List.foldl_cons]
    have hk' : ∀ kn' ∈ rest, e &&& kn'.2 ≠ 0 → kn'.1.testBit i = false :=
      fun kn' hm => hk kn' (List.mem_cons_of_mem _ hm)
    rcases List.mem_cons.mp hmem with heq | hin
    · subst heq
      apply maskFold_clear e i rest _ _ hk'
      unfold maskStep
      rw [if_pos hact, Nat.testBit_or, testBit_bitClear _ _ _ hi, hn,
        hk kn (List.mem_cons_self _ _) hact]
      simp
    · exact ih _ kn hin hact hn hk'

/-! ## The loop of `unmask` -/

theorem unmaskStep_mono (o w e : Nat) (kn : Event × Event) (i : Nat)
    (h : e.testBit i = true) : (unmaskStep o w e kn).testBit i = true := by
  unfold unmaskStep
  split
  · dsimp only
    split <;> split <;> simp [Nat.testBit_or, h]
  · exact h

theorem unmaskFold_mono (o w i : Nat) :
    ∀ (l : List (Event × Event)) (e : Nat), e.testBit i = true →
      (l.foldl (unmaskStep o w) e).testBit i = true := by
  intro l
  induction l with
  | nil => intro e h; simpa using h
  | cons kn rest ih =>
    intro e h
    rw [List.foldl_cons]
    exact ih _ (unmaskStep_mono o w e kn i h)

theorem unmaskFold_value (o w i : Nat) :
    ∀ (l : List (Event × Event)) (e : Nat) (kn : Event × Event), kn ∈ l → o &&& kn.1 ≠ 0 →
      w &&& kn.2 ≠ 0 → kn.2.testBit i = true →
      (l.foldl (unmaskStep o w) e).testBit i = true := by
  intro l
  induction l with
  | nil => intro e kn hmem; simp at hmem
  | cons hd rest ih =>
    intro e kn hmem hk hn hbit
    rw [List.foldl_cons]
    rcases List.mem_cons.mp hmem with heq | hin
    · subst heq
      apply unmaskFold_mono
      unfold unmaskStep
      rw [if_pos hk]
      dsimp only
      rw [if_pos hn, Nat.testBit_or, hbit]
      simp
    · exact ih _ kn hin hk hn hbit

theorem unmaskStep_sub (o w e : Nat) (kn : Event × Event) (hk : IsBit kn.1) (hn : IsBit kn.2)
    (hsub : ∀ i, e.testBit i = true → w.testBit i = true) :
    ∀ i, (unmaskStep o w e kn).testBit i = true → w.testBit i = true := by
  obtain ⟨a, _, ha⟩ := hk
  obtain ⟨b, _, hb⟩ := hn
  have key : ∀ (x j : Nat), (∀ i, x.testBit i = true → w.testBit i = true) →
      w &&& 2 ^ j ≠ 0 → ∀ i, (x ||| 2 ^ j).testBit i = true → w.testBit i = true := by
    intro x j hx hj i hi
    rw [Nat.testBit_or, Bool.or_eq_true] at hi
    rcases hi with hi | hi
    · exact hx i hi
    · rw [Nat.testBit_two_pow] at hi
      have : j = i := by simpa using hi
      rw [← this]
      exact (and_two_pow_ne_zero w j).mp hj
  have h1 : ∀ i, (if w &&& 2 ^ a ≠ 0 then e ||| 2 ^ a else e).testBit i = true →
      w.testBit i = true := by
    by_cases hwa : w &&& 2 ^ a ≠ 0
    · rw [if_pos hwa]; exact key e a hsub hwa
    · rw [if_neg hwa]; exact hsub
  unfold unmaskStep
  rw [ha, hb]
  by_cases hok : o &&& 2 ^ a ≠ 0
  · rw [if_pos hok]
    dsimp only
    by_cases hwb : w &&& 2 ^ b ≠ 0
    · rw [if_pos hwb]; exact key _ b h1 hwb
    · rw [if_neg hwb]; exact h1
  · rw [if_neg hok]; exact hsub

theorem unmaskFold_sub (o w : Nat) :
    ∀ (l : List (Event × Event)) (e : Nat), (∀ kn ∈ l, IsBit kn.1 ∧ IsBit kn.2) →
      (∀ i, e.testBit i = true → w.testBit i = true) →
      ∀ i, (l.foldl (unmaskStep o w) e).testBit i = true → w.testBit i = true := by
  intro l
  induction l with
  | nil => intro e _ h i hi; exact h i (by simpa using hi)
  | cons kn rest ih =>
    intro e hb h
    rw [List.foldl_cons]
    apply ih
    · intro kn' hm; exact hb kn' (List.mem_cons_of_mem _ hm)
    · exact unmaskStep_sub o w e kn (hb kn (List.mem_cons_self _ _)).1
        (hb kn (List.mem_cons_self _ _)).2 h

theorem and_eq_self_of_sub (x y : Nat) (h : ∀ i, x.testBit i = true → y.testBit i = true) :
    y &&& x = x := by
  apply Nat.eq_of_testBit_eq
  intro i
  rw [Nat.testBit_and]
  cases hx : x.testBit i
  · simp
  · simp [h i hx]

theorem and_eq_zero_of_disj (x y : Nat) (h : ∀ i, x.testBit i = true → y.testBit i = false) :
    y &&& x = 0 := by
  apply Nat.eq_of_testBit_eq
  intro i
  rw [Nat.testBit_and, Nat.zero_testBit]
  cases hx : x.testBit i
  · simp
  · simp [h i hx]

theorem sampleConsts_bits : ∀ kn ∈ sampleConsts.ekind, IsBit kn.1 ∧ IsBit kn.2 := by
  decide

theorem sampleConsts_key_ne_value :
    ∀ kn ∈ sampleConsts.ekind, ∀ kn' ∈ sampleConsts.ekind, kn.1 ≠ kn'.2 := by
  decide

theorem sampleConsts_key_ne_create : ∀ kn ∈ sampleConsts.ekind, kn.1 ≠ sampleConsts.Create := by
  decide

/-! ## Codec theorems -/

/-- C1. Codec round trip: when every key and value of `ekind` is a single bit and no key
equals a value, `unmask (mask M) M` contains every bit of the event mask `M` that is not a
bit of `Create`.  (The claim's further assumptions on the table, pairwise distinct keys and
values that differ from `Create`, are not needed.) -/
theorem mask_unmask_roundtrip (c : Consts) (M : Event) (hM : M < 2 ^ 32)
    (hbit : ∀ kn ∈ c.ekind, IsBit kn.1 ∧ IsBit kn.2)
    (hkv : ∀ kn ∈ c.ekind, ∀ kn' ∈ c.ekind, kn.1 ≠ kn'.2) :
    ∀ i, M.testBit i = true → c.Create.testBit i = false →
      (unmask c (mask c M) M).testBit i = true := by
  intro i hMi hCi
  have hi : i < 32 := testBit_of_lt hM hMi
  unfold unmask
  rw [Nat.testBit_or, Bool.or_eq_true]
  by_cases hval : ∃ kn ∈ c.ekind, kn.2.testBit i = true
  · left
    obtain ⟨kn, hmem, hni⟩ := hval
    have hact : M &&& kn.2 ≠ 0 := (and_ne_zero_iff_exists _ _).mpr ⟨i, hMi, hni⟩
    obtain ⟨a, ha, hka⟩ := (hbit kn hmem).1
    have hkbit : kn.1.testBit a = true := by rw [hka]; exact Nat.testBit_two_pow_self
    have hmask : (mask c M).testBit a = true := by
      unfold mask
      apply maskFold_key M a ha c.ekind _ kn hmem hact hkbit
      intro kn' hmem' _
      exact IsBit.testBit_ne (hbit kn hmem).1 (hbit kn' hmem').2 (hkv kn hmem kn' hmem') a hkbit
    have hok : mask c M &&& kn.1 ≠ 0 :=
      (and_ne_zero_iff_exists _ _).mpr ⟨a, hmask, hkbit⟩
    exact unmaskFold_value (mask c M) M i c.ekind 0 kn hmem hok hact hni
  · right
    rw [Nat.testBit_and, hMi, Bool.and_true]
    unfold mask
    apply maskFold_keep M i hi
    · rw [testBit_bitClear _ _ _ hi, hMi, hCi]; rfl
    · intro kn hmem _
      cases hn : kn.2.testBit i
      · rfl
      · exact absurd ⟨kn, hmem, hn⟩ hval

theorem mask_unmask_roundtrip_witness :
    (unmask sampleConsts (mask sampleConsts 0x500) 0x500).testBit 10 = true :=
  mask_unmask_roundtrip sampleConsts 0x500 (by decide) sampleConsts_bits
    sampleConsts_key_ne_value 10 (by decide) (by decide)

/-- C2. `unmask` never reports an event that was not requested: when every key and value of
`ekind` is a single bit, every bit of `unmask o w` is a bit of the watched mask `w`, that is
`unmask(o, w) & ^w = 0`. -/
theorem unmask_no_leak (c : Consts) (o : Nat) (w : Event) (hw : w < 2 ^ 32)
    (hbit : ∀ kn ∈ c.ekind, IsBit kn.1 ∧ IsBit kn.2) :
    (∀ i, (unmask c o w).testBit i = true → w.testBit i = true) ∧
      unmask c o w &&& compl32 w = 0 := by
  have hsub : ∀ i, (unmask c o w).testBit i = true → w.testBit i = true := by
    intro i hi
    unfold unmask at hi
    rw [Nat.testBit_or, Bool.or_eq_true] at hi
    rcases hi with hi | hi
    · exact unmaskFold_sub o w c.ekind 0 hbit (by intro j hj; simp at hj) i hi
    · rw [Nat.testBit_and, Bool.and_eq_true] at hi
      exact hi.2
  refine ⟨hsub, ?_⟩
  apply Nat.eq_of_testBit_eq
  intro i
  rw [Nat.testBit_and, Nat.zero_testBit, testBit_compl32]
  cases hr : (unmask c o w).testBit i
  · rfl
  · have hwi := hsub i hr
    have hi : i < 32 := testBit_of_lt hw hwi
    simp [hwi, hi]

theorem unmask_no_leak_witness :
    (∀ i, (unmask sampleConsts 0x3 0x600).testBit i = true → (0x600 : Nat).testBit i = true) ∧
      unmask sampleConsts 0x3 0x600 &&& compl32 0x600 = 0 :=
  unmask_no_leak sampleConsts 0x3 0x600 (by decide) sampleConsts_bits

/-- C3. Postcondition of `mask`: when `Create` and every key and value of `ekind` are single
bits, no key equals `Create` and no key equals a value, then `mask e` has the `Create` bit
clear; for every pair `(k, n)` of the table whose portable bit `n` is set in `e`, `mask e` has
`k` set and `n` clear; and every other bit of `e` is passed through unchanged. -/
theorem mask_postcondition (c : Consts) (e : Event) (he : e < 2 ^ 32) (hC : IsBit c.Create)
    (hbit : ∀ kn ∈ c.ekind, IsBit kn.1 ∧ IsBit kn.2)
    (hkC : ∀ kn ∈ c.ekind, kn.1 ≠ c.Create)
    (hkv : ∀ kn ∈ c.ekind, ∀ kn' ∈ c.ekind, kn.1 ≠ kn'.2) :
    mask c e &&& c.Create = 0 ∧
    (∀ kn ∈ c.ekind, e &&& kn.2 ≠ 0 → mask c e &&& kn.1 = kn.1 ∧ mask c e &&& kn.2 = 0) ∧
    (∀ i, 2 ^ i ≠ c.Create →
      (∀ kn ∈ c.ekind, e &&& kn.2 ≠ 0 → 2 ^ i ≠ kn.1 ∧ 2 ^ i ≠ kn.2) →
      (mask c e).testBit i = e.testBit i) := by
  refine ⟨?_, ?_, ?_⟩
  · apply and_eq_zero_of_disj
    intro j hj
    have hj32 : j < 32 := testBit_of_lt hC.lt hj
    unfold mask
    apply maskFold_clear
    · rw [testBit_bitClear _ _ _ hj32, hj]; simp
    · intro kn hmem _
      exact IsBit.testBit_ne hC (hbit kn hmem).1 (fun h => hkC kn hmem h.symm) j hj
  · intro kn hmem hact
    constructor
    · apply and_eq_self_of_sub
      intro a ha
      have ha32 : a < 32 := testBit_of_lt (hbit kn hmem).1.lt ha
      unfold mask
      apply maskFold_key e a ha32 c.ekind _ kn hmem hact ha
      intro kn' hmem' _
      exact IsBit.testBit_ne (hbit kn hmem).1 (hbit kn' hmem').2 (hkv kn hmem kn' hmem') a ha
    · apply and_eq_zero_of_disj
      intro b hb
      have hb32 : b < 32 := testBit_of_lt (hbit kn hmem).2.lt hb
      unfold mask
      apply maskFold_value e b hb32 c.ekind _ kn hmem hact hb
      intro kn' hmem' _
      cases hk : kn'.1.testBit b
      · rfl
      · have := IsBit.testBit_ne (hbit kn' hmem').1 (hbit kn hmem).2 (hkv kn' hmem' kn hmem) b hk
        rw [this] at hb
        exact Bool.noConfusion hb
  · intro i hiC hother
    by_cases hi : i < 32
    · have hbi : IsBit (2 ^ i) := ⟨i, hi, rfl⟩
      have hCi : c.Create.testBit i = false :=
        IsBit.testBit_ne hbi hC hiC i Nat.testBit_two_pow_self
      have h0 : (bitClear e c.Create).testBit i = e.testBit i := by
        rw [testBit_bitClear _ _ _ hi, hCi]; simp
      unfold mask
      cases hei : e.testBit i
      · apply maskFold_clear
        · rw [h0, hei]
        · intro kn hmem hact
          exact IsBit.testBit_ne hbi (hbit kn hmem).1 (hother kn hmem hact).1 i
            Nat.testBit_two_pow_self
      · apply maskFold_keep e i hi
        · rw [h0, hei]
        · intro kn hmem hact
          exact IsBit.testBit_ne hbi (hbit kn hmem).2 (hother kn hmem hact).2 i
            Nat.testBit_two_pow_self
    · have hei : e.testBit i = false := by
        cases h : e.testBit i
        · rfl
        · exact absurd (testBit_of_lt he h) hi
      rw [hei]
      unfold mask
      apply maskFold_clear
      · unfold bitClear
        rw [Nat.testBit_and, hei]; rfl
      · intro kn hmem _
        cases h : kn.1.testBit i
        · rfl
        · exact absurd (testBit_of_lt (hbit kn hmem).1.lt h) hi

theorem mask_postcondition_witness :
    mask sampleConsts 0x500 &&& sampleConsts.Create = 0 ∧
    (∀ kn ∈ sampleConsts.ekind, 0x500 &&& kn.2 ≠ 0 →
      mask sampleConsts 0x500 &&& kn.1 = kn.1 ∧ mask sampleConsts 0x500 &&& kn.2 = 0) ∧
    (∀ i, 2 ^ i ≠ sampleConsts.Create →
      (∀ kn ∈ sampleConsts.ekind, 0x500 &&& kn.2 ≠ 0 → 2 ^ i ≠ kn.1 ∧ 2 ^ i ≠ kn.2) →
      (mask sampleConsts 0x500).testBit i = (0x500 : Nat).testBit i) :=
  mask_postcondition sampleConsts 0x500 (by decide) (by decide) sampleConsts_bits
    sampleConsts_key_ne_create sampleConsts_key_ne_value

/-! ## Association lists -/

theorem mdel_cons_eq {κ : Type} [DecidableEq κ] (rest : List (κ × Nat)) (key : κ) (v : Nat) :
    mdel ((key, v) :: rest) key = mdel rest key := by
  simp [mdel]

theorem mdel_cons_ne {κ : Type} [DecidableEq κ] (rest : List (κ × Nat)) (key k' : κ) (v : Nat)
    (h : k' ≠ key) : mdel ((k', v) :: rest) key = (k', v) :: mdel rest key := by
  simp [mdel, h]

theorem mget_mdel_self {κ : Type} [DecidableEq κ] (m : List (κ × Nat)) (key : κ) :
    mget (mdel m key) key = none := by
  induction m with
  | nil => rfl
  | cons kv rest ih =>
    obtain ⟨k', v⟩ := kv
    by_cases h : k' = key
    · subst h; rw [mdel_cons_eq]; exact ih
    · rw [mdel_cons_ne _ _ _ _ h, mget, if_neg h]; exact ih

theorem mget_mdel_ne {κ : Type} [DecidableEq κ] (m : List (κ × Nat)) (key key' : κ)
    (hne : key' ≠ key) : mget (mdel m key) key' = mget m key' := by
  induction m with
  | nil => rfl
  | cons kv rest ih =>
    obtain ⟨k', v⟩ := kv
    by_cases h : k' = key
    · subst h
      rw [mdel_cons_eq, ih, mget, if_neg (fun h2 => hne h2.symm)]
    · rw [mdel_cons_ne _ _ _ _ h]
      by_cases h2 : k' = key'
      · rw [mget, if_pos h2, mget, if_pos h2]
      · rw [mget, if_neg h2, mget, if_neg h2]; exact ih

theorem mget_mset_self {κ : Type} [DecidableEq κ] (m : List (κ × Nat)) (key : κ) (v : Nat) :
    mget (mset m key v) key = some v := by
  simp [mset, mget]

theorem mget_mset_ne {κ : Type} [DecidableEq κ] (m : List (κ × Nat)) (key key' : κ) (v : Nat)
    (hne : key' ≠ key) : mget (mset m key v) key' = mget m key' := by
  have h : ¬ key = key' := fun h => hne h.symm
  simp only [mset, mget, if_neg h]
  exact mget_mdel_ne m key key' hne

/-! ## The effect of `singlewatch` and `singleunwatch` on the table -/

theorem clearMask_and (w : watched) (direct : Bool) :
    (clearMask w direct).eNonDir &&& (clearMask w direct).eDir = 0 := by
  cases direct <;> simp [clearMask]

theorem subscribe_cases (c : Consts) (os : OS) (k k' : kqueue) (a : Nat) (e : Event)
    (direct ok : Bool) (r : Option Err) (h : subscribe c os k a e direct ok = .ret r k') :
    k'.next = k.next ∧ k'.heap = Function.update k.heap a (merge (k.heap a) e direct) ∧
    ((k'.idLkp = k.idLkp ∧ k'.pthLkp = k.pthLkp ∧ r ≠ none) ∨
      (ok = false ∧ r = none ∧ ∃ im pm, k.idLkp = some im ∧ k.pthLkp = some pm ∧
        k'.idLkp = some (mset im (k.heap a).fd a) ∧ k'.pthLkp = some (mset pm (k.heap a).p a))) := by
  have hfdm : (merge (k.heap a) e direct).fd = (k.heap a).fd := by
    cases direct <;> rfl
  have hpm : (merge (k.heap a) e direct).p = (k.heap a).p := by
    cases direct <;> rfl
  unfold subscribe at h
  dsimp only at h
  cases hfd : k.fd with
  | none => rw [hfd] at h; exact Res.noConfusion h
  | some kq =>
    rw [hfd] at h
    dsimp only at h
    cases hk : os.sysKevent k.tick with
    | some n =>
      rw [hk] at h
      dsimp only at h
      injection h with hr hk'
      subst hk' hr
      exact ⟨rfl, rfl, Or.inl ⟨rfl, rfl, by simp⟩⟩
    | none =>
      rw [hk] at h
      dsimp only at h
      cases ok with
      | true =>
        rw [if_pos rfl] at h
        injection h with hr hk'
        subst hk' hr
        exact ⟨rfl, rfl, Or.inl ⟨rfl, rfl, by simp⟩⟩
      | false =>
        rw [if_neg (by simp)] at h
        cases him : k.idLkp with
        | none => rw [him] at h; exact Res.noConfusion h
        | some im =>
          cases hpm' : k.pthLkp with
          | none => rw [him, hpm'] at h; exact Res.noConfusion h
          | some pm =>
            rw [him, hpm'] at h
            dsimp only at h
            injection h with hr hk'
            subst hk' hr
            refine ⟨rfl, rfl, Or.inr ⟨rfl, rfl, im, pm, rfl, rfl, ?_, ?_⟩⟩
            · dsimp only; rw [hfdm]
            · dsimp only; rw [hpm]

theorem merge_p (w : watched) (e : Event) (direct : Bool) : (merge w e direct).p = w.p := by
  cases direct <;> rfl

theorem merge_fd (w : watched) (e : Event) (direct : Bool) : (merge w e direct).fd = w.fd := by
  cases direct <;> rfl

theorem clearMask_p (w : watched) (direct : Bool) : (clearMask w direct).p = w.p := by
  cases direct <;> rfl

theorem clearMask_fd (w : watched) (direct : Bool) : (clearMask w direct).fd = w.fd := by
  cases direct <;> rfl

theorem singlewatch_cases (c : Consts) (os : OS) (k k' : kqueue) (p : String) (e : Event)
    (direct dir : Bool) (r : Option Err)
    (h : singlewatch c os k p e direct dir = .ret r k') :
    (∃ a, lookupPth k p = some a ∧ k'.idLkp = k.idLkp ∧ k'.pthLkp = k.pthLkp ∧
      k'.next = k.next ∧ k'.heap = Function.update k.heap a (merge (k.heap a) e direct) ∧
      r ≠ none) ∨
    (lookupPth k p = none ∧ k'.idLkp = k.idLkp ∧ k'.pthLkp = k.pthLkp ∧ k'.next = k.next ∧
      k'.heap = k.heap ∧ r ≠ none) ∨
    (lookupPth k p = none ∧ ∃ fd, os.sysOpen k.tick p = .ok fd ∧ k'.next = k.next + 1 ∧
      k'.heap = Function.update k.heap k.next (merge ⟨p, fd, dir, 0, 0⟩ e direct) ∧
      ((k'.idLkp = k.idLkp ∧ k'.pthLkp = k.pthLkp ∧ r ≠ none) ∨
        (r = none ∧ ∃ im pm, k.idLkp = some im ∧ k.pthLkp = some pm ∧
          k'.idLkp = some (mset im fd k.next) ∧ k'.pthLkp = some (mset pm p k.next)))) := by
  unfold singlewatch at h
  cases hl : lookupPth k p with
  | some a =>
    rw [hl] at h
    dsimp only at h
    obtain ⟨hn, hh, hrest⟩ := subscribe_cases c os k k' a e direct true r h
    rcases hrest with ⟨hi, hp, hr⟩ | ⟨hok, _⟩
    · exact Or.inl ⟨a, rfl, hi, hp, hn, hh, hr⟩
    · exact Bool.noConfusion hok
  | none =>
    rw [hl] at h
    dsimp only at h
    cases ho : os.sysOpen k.tick p with
    | error n =>
      rw [ho] at h
      dsimp only at h
      injection h with hr hk'
      subst hk' hr
      exact Or.inr (Or.inl ⟨rfl, rfl, rfl, rfl, rfl, by simp⟩)
    | ok fd =>
      rw [ho] at h
      dsimp only at h
      obtain ⟨hn, hh, hrest⟩ := subscribe_cases c os _ k' k.next e direct false r h
      dsimp only at hn hh hrest
      rw [Function.update_same, Function.update_idem] at hh
      rw [Function.update_same] at hrest
      refine Or.inr (Or.inr ⟨rfl, fd, rfl, hn, hh, ?_⟩)
      rcases hrest with ⟨hi, hp, hr⟩ | ⟨_, hr, im, pm, him, hpm, hi, hp⟩
      · exact Or.inl ⟨hi, hp, hr⟩
      · exact Or.inr ⟨hr, im, pm, him, hpm, hi, hp⟩

theorem singleunwatch_cases (c : Consts) (os : OS) (k k' : kqueue) (p : String)
    (direct : Bool) (r : Option Err) (h : singleunwatch c os k p direct = .ret r k') :
    (lookupPth k p = none ∧ k' = k ∧ r = some .notWatched) ∨
    (∃ a, lookupPth k p = some a ∧ k'.next = k.next ∧
      k'.heap = Function.update k.heap a (clearMask (k.heap a) direct) ∧
      ((k'.idLkp = k.idLkp ∧ k'.pthLkp = k.pthLkp ∧ ∃ n, r = some (.sys n)) ∨
        (r = none ∧ k'.closed = (k.heap a).fd :: k.closed ∧
          k'.idLkp = k.idLkp.map (fun m => mdel m (k.heap a).fd) ∧
          k'.pthLkp = k.pthLkp.map (fun m => mdel m (k.heap a).p)))) := by
  unfold singleunwatch at h
  cases hl : lookupPth k p with
  | none =>
    rw [hl] at h
    dsimp only at h
    injection h with hr hk'
    exact Or.inl ⟨rfl, hk'.symm, hr.symm⟩
  | some a =>
    rw [hl] at h
    dsimp only at h
    cases hfd : k.fd with
    | none => rw [hfd] at h; exact Res.noConfusion h
    | some kq =>
      rw [hfd] at h
      dsimp only at h
      cases hk : os.sysKevent k.tick with
      | some n =>
        rw [hk] at h
        dsimp only at h
        injection h with hr hk'
        subst hk' hr
        exact Or.inr ⟨a, rfl, rfl, rfl, Or.inl ⟨rfl, rfl, n, rfl⟩⟩
      | none =>
        rw [hk] at h
        dsimp only at h
        rw [if_neg (by rw [clearMask_and]; simp)] at h
        injection h with hr hk'
        subst hk' hr
        refine Or.inr ⟨a, rfl, rfl, rfl, Or.inr ⟨rfl, ?_, ?_, ?_⟩⟩
        · simp [del, clearMask_fd]
        · simp [del, clearMask_fd]
        · simp [del, clearMask_p]

/-! ## Lookups after a change of the maps -/

theorem lookupId_of_eq {k k' : kqueue} (h : k'.idLkp = k.idLkp) (fd : Int) :
    lookupId k' fd = lookupId k fd := by
  unfold lookupId; rw [h]

theorem lookupPth_of_eq {k k' : kqueue} (h : k'.pthLkp = k.pthLkp) (p : String) :
    lookupPth k' p = lookupPth k p := by
  unfold lookupPth; rw [h]

theorem lookupId_mset {k k' : kqueue} {im : List (Int × Nat)} {fd : Int} {a : Nat}
    (hk : k.idLkp = some im) (h : k'.idLkp = some (mset im fd a)) (fd' : Int) :
    lookupId k' fd' = if fd' = fd then some a else lookupId k fd' := by
  unfold lookupId
  rw [h, hk]
  dsimp only
  by_cases hfd : fd' = fd
  · rw [if_pos hfd, hfd, mget_mset_self]
  · rw [if_neg hfd, mget_mset_ne _ _ _ _ hfd]

theorem lookupPth_mset {k k' : kqueue} {pm : List (String × Nat)} {p : String} {a : Nat}
    (hk : k.pthLkp = some pm) (h : k'.pthLkp = some (mset pm p a)) (p' : String) :
    lookupPth k' p' = if p' = p then some a else lookupPth k p' := by
  unfold lookupPth
  rw [h, hk]
  dsimp only
  by_cases hp : p' = p
  · rw [if_pos hp, hp, mget_mset_self]
  · rw [if_neg hp, mget_mset_ne _ _ _ _ hp]

theorem lookupId_mdel {k k' : kqueue} {fd : Int}
    (h : k'.idLkp = k.idLkp.map (fun m => mdel m fd)) (fd' : Int) :
    lookupId k' fd' = if fd' = fd then none else lookupId k fd' := by
  unfold lookupId
  rw [h]
  cases k.idLkp with
  | none => simp
  | some m =>
    dsimp only [Option.map]
    by_cases hfd : fd' = fd
    · rw [if_pos hfd, hfd, mget_mdel_self]
    · rw [if_neg hfd, mget_mdel_ne _ _ _ hfd]

theorem lookupPth_mdel {k k' : kqueue} {p : String}
    (h : k'.pthLkp = k.pthLkp.map (fun m => mdel m p)) (p' : String) :
    lookupPth k' p' = if p' = p then none else lookupPth k p' := by
  unfold lookupPth
  rw [h]
  cases k.pthLkp with
  | none => simp
  | some m =>
    dsimp only [Option.map]
    by_cases hp : p' = p
    · rw [if_pos hp, hp, mget_mdel_self]
    · rw [if_neg hp, mget_mdel_ne _ _ _ hp]

/-! ## Consistency of the two indexes is preserved -/

theorem Consistent.of_same {k k' : kqueue} (hk : Consistent k) (hi : k'.idLkp = k.idLkp)
    (hp : k'.pthLkp = k.pthLkp) (hn : k.next ≤ k'.next)
    (hh : ∀ x, x < k.next → (k'.heap x).p = (k.heap x).p ∧ (k'.heap x).fd = (k.heap x).fd) :
    Consistent k' := by
  constructor
  · intro fd a ha
    rw [lookupId_of_eq hi] at ha
    obtain ⟨h1, h2⟩ := hk.id_pth fd a ha
    have hb := hk.bound _ a h2
    rw [lookupPth_of_eq hp, (hh a hb).1, (hh a hb).2]
    exact ⟨h1, h2⟩
  · intro p a ha
    rw [lookupPth_of_eq hp] at ha
    obtain ⟨h1, h2⟩ := hk.pth_id p a ha
    have hb := hk.bound _ a ha
    rw [lookupId_of_eq hi, (hh a hb).1, (hh a hb).2]
    exact ⟨h1, h2⟩
  · intro p a ha
    rw [lookupPth_of_eq hp] at ha
    exact Nat.lt_of_lt_of_le (hk.bound p a ha) hn

theorem Consistent.insert {k k' : kqueue} (hk : Consistent k) {im : List (Int × Nat)}
    {pm : List (String × Nat)} {p : String} {fd : Int} {w : watched}
    (him : k.idLkp = some im) (hpm : k.pthLkp = some pm)
    (hp : lookupPth k p = none) (hfd : lookupId k fd = none)
    (hi' : k'.idLkp = some (mset im fd k.next)) (hp' : k'.pthLkp = some (mset pm p k.next))
    (hn : k'.next = k.next + 1) (hh : k'.heap = Function.update k.heap k.next w)
    (hwp : w.p = p) (hwfd : w.fd = fd) : Consistent k' := by
  have hnew : k'.heap k.next = w := by rw [hh, Function.update_same]
  have hold : ∀ x, x < k.next → k'.heap x = k.heap x := by
    intro x hx
    rw [hh, Function.update_noteq (Nat.ne_of_lt hx)]
  constructor
  · intro fd' a ha
    rw [lookupId_mset him hi'] at ha
    by_cases hf : fd' = fd
    · rw [if_pos hf] at ha
      injection ha with ha
      subst ha
      rw [hnew, hwp, hwfd, lookupPth_mset hpm hp', if_pos rfl]
      exact ⟨hf.symm, rfl⟩
    · rw [if_neg hf] at ha
      obtain ⟨h1, h2⟩ := hk.id_pth fd' a ha
      have hb := hk.bound _ a h2
      rw [hold a hb, lookupPth_mset hpm hp']
      have hne : (k.heap a).p ≠ p := by
        intro heq
        rw [heq, hp] at h2
        exact Option.noConfusion h2
      rw [if_neg hne]
      exact ⟨h1, h2⟩
  · intro p' a ha
    rw [lookupPth_mset hpm hp'] at ha
    by_cases hpp : p' = p
    · rw [if_pos hpp] at ha
      injection ha with ha
      subst ha
      rw [hnew, hwp, hwfd, lookupId_mset him hi', if_pos rfl]
      exact ⟨hpp.symm, rfl⟩
    · rw [if_neg hpp] at ha
      obtain ⟨h1, h2⟩ := hk.pth_id p' a ha
      have hb := hk.bound _ a ha
      rw [hold a hb, lookupId_mset him hi']
      have hne : (k.heap a).fd ≠ fd := by
        intro heq
        rw [heq, hfd] at h2
        exact Option.noConfusion h2
      rw [if_neg hne]
      exact ⟨h1, h2⟩
  · intro p' a ha
    rw [lookupPth_mset hpm hp'] at ha
    rw [hn]
    by_cases hpp : p' = p
    · rw [if_pos hpp] at ha
      injection ha with ha
      subst ha
      exact Nat.lt_succ_self _
    · rw [if_neg hpp] at ha
      exact Nat.lt_succ_of_lt (hk.bound p' a ha)

theorem Consistent.delete {k k' : kqueue} (hk : Consistent k) {p : String} {a : Nat}
    (ha : lookupPth k p = some a)
    (hi' : k'.idLkp = k.idLkp.map (fun m => mdel m (k.heap a).fd))
    (hp' : k'.pthLkp = k.pthLkp.map (fun m => mdel m (k.heap a).p))
    (hn : k.next ≤ k'.next)
    (hh : ∀ x, x < k.next → (k'.heap x).p = (k.heap x).p ∧ (k'.heap x).fd = (k.heap x).fd) :
    Consistent k' := by
  obtain ⟨hap, haf⟩ := hk.pth_id p a ha
  constructor
  · intro fd' b hb
    rw [lookupId_mdel hi'] at hb
    by_cases hf : fd' = (k.heap a).fd
    · rw [if_pos hf] at hb; exact Option.noConfusion hb
    · rw [if_neg hf] at hb
      obtain ⟨h1, h2⟩ := hk.id_pth fd' b hb
      have hbb := hk.bound _ b h2
      rw [(hh b hbb).1, (hh b hbb).2, lookupPth_mdel hp']
      have hne : (k.heap b).p ≠ (k.heap a).p := by
        intro heq
        rw [heq, hap, ha] at h2
        injection h2 with h2
        apply hf
        rw [h2, h1]
      rw [if_neg hne]
      exact ⟨h1, h2⟩
  · intro p' b hb
    rw [lookupPth_mdel hp'] at hb
    by_cases hpp : p' = (k.heap a).p
    · rw [if_pos hpp] at hb; exact Option.noConfusion hb
    · rw [if_neg hpp] at hb
      obtain ⟨h1, h2⟩ := hk.pth_id p' b hb
      have hbb := hk.bound _ b hb
      rw [(hh b hbb).1, (hh b hbb).2, lookupId_mdel hi']
      have hne : (k.heap b).fd ≠ (k.heap a).fd := by
        intro heq
        rw [heq, haf] at h2
        injection h2 with h2
        apply hpp
        rw [h2, h1]
      rw [if_neg hne]
      exact ⟨h1, h2⟩
  · intro p' b hb
    rw [lookupPth_mdel hp'] at hb
    by_cases hpp : p' = (k.heap a).p
    · rw [if_pos hpp] at hb; exact Option.noConfusion hb
    · rw [if_neg hpp] at hb
      exact Nat.lt_of_lt_of_le (hk.bound p' b hb) hn

theorem newWatcher_consistent (os : OS) (k : kqueue) (h : newWatcher os = .ret () k) :
    Consistent k := by
  unfold newWatcher at h
  cases hq : os.sysKqueue with
  | error n => rw [hq] at h; exact Res.noConfusion h
  | ok fd =>
    rw [hq] at h
    injection h with _ hk
    subst hk
    constructor <;> intro x a ha <;> simp [lookupId, lookupPth, mget] at ha

theorem singlewatch_consistent (c : Consts) (os : OS) (k k' : kqueue) (p : String) (e : Event)
    (direct dir : Bool) (r : Option Err) (hk : Consistent k)
    (hfresh : ∀ fd, os.sysOpen k.tick p = .ok fd → lookupId k fd = none)
    (h : singlewatch c os k p e direct dir = .ret r k') : Consistent k' := by
  rcases singlewatch_cases c os k k' p e direct dir r h with
    ⟨a, _, hi, hp, hn, hh, _⟩ | ⟨_, hi, hp, hn, hh, _⟩ | ⟨hl, fd, ho, hn, hh, hrest⟩
  · apply hk.of_same hi hp (Nat.le_of_eq hn.symm)
    intro x _
    rw [hh]
    by_cases hx : x = a
    · subst hx; rw [Function.update_same, merge_p, merge_fd]; exact ⟨rfl, rfl⟩
    · rw [Function.update_noteq hx]; exact ⟨rfl, rfl⟩
  · apply hk.of_same hi hp (Nat.le_of_eq hn.symm)
    intro x _
    rw [hh]; exact ⟨rfl, rfl⟩
  · rcases hrest with ⟨hi, hp, _⟩ | ⟨_, im, pm, him, hpm, hi, hp⟩
    · apply hk.of_same hi hp (by rw [hn]; exact Nat.le_succ _)
      intro x hx
      rw [hh, Function.update_noteq (Nat.ne_of_lt hx)]; exact ⟨rfl, rfl⟩
    · exact hk.insert him hpm hl (hfresh fd ho) hi hp hn hh (merge_p _ _ _) (merge_fd _ _ _)

theorem singleunwatch_consistent (c : Consts) (os : OS) (k k' : kqueue) (p : String)
    (direct : Bool) (r : Option Err) (hk : Consistent k)
    (h : singleunwatch c os k p direct = .ret r k') : Consistent k' := by
  rcases singleunwatch_cases c os k k' p direct r h with
    ⟨_, hk', _⟩ | ⟨a, hl, hn, hh, hrest⟩
  · rw [hk']; exact hk
  · have hsame : ∀ x, x < k.next →
        (k'.heap x).p = (k.heap x).p ∧ (k'.heap x).fd = (k.heap x).fd := by
      intro x _
      rw [hh]
      by_cases hx : x = a
      · subst hx; rw [Function.update_same, clearMask_p, clearMask_fd]; exact ⟨rfl, rfl⟩
      · rw [Function.update_noteq hx]; exact ⟨rfl, rfl⟩
    rcases hrest with ⟨hi, hp, _⟩ | ⟨_, _, hi, hp⟩
    · exact hk.of_same hi hp (Nat.le_of_eq hn.symm) hsame
    · exact hk.delete hl hi hp (Nat.le_of_eq hn.symm) hsame

theorem del_consistent (k : kqueue) (fd : Int) (a : Nat) (hk : Consistent k)
    (ha : lookupId k fd = some a) : Consistent (del k a) :=
  hk.delete (hk.id_pth fd a ha).2 rfl rfl (Nat.le_refl _) (fun _ _ => ⟨rfl, rfl⟩)

theorem Reach.consistent (c : Consts) (k : kqueue) (h : Reach c k) : Consistent k := by
  induction h with
  | init os k h0 => exact newWatcher_consistent os k h0
  | stepWatch os k k' p e direct dir r _ hfresh hstep ih =>
    exact singlewatch_consistent c os k k' p e direct dir r ih hfresh hstep
  | stepUnwatch os k k' p direct r _ hstep ih =>
    exact singleunwatch_consistent c os k k' p direct r ih hstep
  | stepDel k fd a _ ha ih => exact del_consistent k fd a ih ha

theorem watchedOnce_eq :
    singlewatch sampleConsts (okOS 4 false []) k0 "a" 0x400 true false
      = .ret none watchedOnce := rfl

theorem watchedOnce_reach : Reach sampleConsts watchedOnce :=
  Reach.stepWatch (okOS 4 false []) k0 watchedOnce "a" 0x400 true false none
    (Reach.init (okOS 4 false []) k0 rfl) (fun _ _ => rfl) watchedOnce_eq

/-! ## Watch table theorems -/

/-- C4. Dual-index consistency: in every state a new watcher reaches by calls of
`singlewatch`, `singleunwatch` and `del` that return, whatever the system calls answer and as
long as the operating system never returns a descriptor a table entry still holds,
`idLkp[fd] = w` implies `w.fd = fd` and `pthLkp[w.p] = w`, and `pthLkp[p] = w` implies
`w.p = p` and `idLkp[w.fd] = w`. -/
theorem index_consistency (c : Consts) (k : kqueue) (h : Reach c k) :
    (∀ fd a, lookupId k fd = some a →
      (k.heap a).fd = fd ∧ lookupPth k (k.heap a).p = some a) ∧
    (∀ p a, lookupPth k p = some a →
      (k.heap a).p = p ∧ lookupId k (k.heap a).fd = some a) :=
  ⟨(Reach.consistent c k h).id_pth, (Reach.consistent c k h).pth_id⟩

theorem index_consistency_witness :
    Reach sampleConsts watchedOnce ∧
    (∀ fd a, lookupId watchedOnce fd = some a →
      (watchedOnce.heap a).fd = fd ∧ lookupPth watchedOnce (watchedOnce.heap a).p = some a) ∧
    (∀ p a, lookupPth watchedOnce p = some a →
      (watchedOnce.heap a).p = p ∧ lookupId watchedOnce (watchedOnce.heap a).fd = some a) :=
  ⟨watchedOnce_reach, index_consistency sampleConsts watchedOnce watchedOnce_reach⟩

/-! ## Records with an empty mask -/

theorem or_ne_zero_right (x e : Nat) (he : e ≠ 0) : x ||| e ≠ 0 := by
  obtain ⟨i, hi⟩ := Nat.ne_zero_implies_bit_true he
  intro h0
  have : (x ||| e).testBit i = true := by rw [Nat.testBit_or, hi, Bool.or_true]
  rw [h0] at this
  simp at this

theorem merge_nz (w : watched) (e : Event) (direct : Bool) (he : e ≠ 0) :
    (merge w e direct).eDir ≠ 0 ∨ (merge w e direct).eNonDir ≠ 0 := by
  cases direct
  · right; exact or_ne_zero_right _ e he
  · left; exact or_ne_zero_right _ e he

theorem newWatcher_noEmpty (os : OS) (k : kqueue) (h : newWatcher os = .ret () k) :
    NoEmpty k := by
  unfold newWatcher at h
  cases hq : os.sysKqueue with
  | error n => rw [hq] at h; exact Res.noConfusion h
  | ok fd =>
    rw [hq] at h
    injection h with _ hk
    subst hk
    constructor <;> intro x a ha <;> simp [lookupId, lookupPth, mget] at ha

theorem NoEmpty.transfer {k k' : kqueue} (hk : NoEmpty k) (hi : k'.idLkp = k.idLkp)
    (hp : k'.pthLkp = k.pthLkp) (hn : k.next ≤ k'.next)
    (hh : ∀ x, x < k.next → (k'.heap x).p = (k.heap x).p ∧ (k'.heap x).fd = (k.heap x).fd ∧
      ((k.heap x).eDir ≠ 0 ∨ (k.heap x).eNonDir ≠ 0 →
        (k'.heap x).eDir ≠ 0 ∨ (k'.heap x).eNonDir ≠ 0)) : NoEmpty k' := by
  constructor
  · intro fd a ha
    rw [lookupId_of_eq hi] at ha
    rw [(hh a (hk.bound_id fd a ha)).2.1]; exact hk.key_id fd a ha
  · intro p a ha
    rw [lookupPth_of_eq hp] at ha
    rw [(hh a (hk.bound_pth p a ha)).1]; exact hk.key_pth p a ha
  · intro fd a ha
    rw [lookupId_of_eq hi] at ha
    exact Nat.lt_of_lt_of_le (hk.bound_id fd a ha) hn
  · intro p a ha
    rw [lookupPth_of_eq hp] at ha
    exact Nat.lt_of_lt_of_le (hk.bound_pth p a ha) hn
  · intro fd a ha
    rw [lookupId_of_eq hi] at ha
    exact (hh a (hk.bound_id fd a ha)).2.2 (hk.nz_id fd a ha)
  · intro p a ha
    rw [lookupPth_of_eq hp] at ha
    exact (hh a (hk.bound_pth p a ha)).2.2 (hk.nz_pth p a ha)

theorem singlewatch_noEmpty (c : Consts) (os : OS) (k k' : kqueue) (p : String) (e : Event)
    (direct dir : Bool) (r : Option Err) (hk : NoEmpty k) (he : e ≠ 0)
    (h : singlewatch c os k p e direct dir = .ret r k') : NoEmpty k' := by
  rcases singlewatch_cases c os k k' p e direct dir r h with
    ⟨a, _, hi, hp, hn, hh, _⟩ | ⟨_, hi, hp, hn, hh, _⟩ | ⟨hl, fd, ho, hn, hh, hrest⟩
  · apply hk.transfer hi hp (Nat.le_of_eq hn.symm)
    intro x _
    rw [hh]
    by_cases hx : x = a
    · subst hx
      rw [Function.update_same, merge_p, merge_fd]
      exact ⟨rfl, rfl, fun _ => merge_nz _ e direct he⟩
    · rw [Function.update_noteq hx]; exact ⟨rfl, rfl, id⟩
  · apply hk.transfer hi hp (Nat.le_of_eq hn.symm)
    intro x _
    rw [hh]; exact ⟨rfl, rfl, id⟩
  · have hold : ∀ x, x < k.next → k'.heap x = k.heap x := by
      intro x hx
      rw [hh, Function.update_noteq (Nat.ne_of_lt hx)]
    have hnew : k'.heap k.next = merge ⟨p, fd, dir, 0, 0⟩ e direct := by
      rw [hh, Function.update_same]
    rcases hrest with ⟨hi, hp, _⟩ | ⟨_, im, pm, him, hpm, hi, hp⟩
    · apply hk.transfer hi hp (by rw [hn]; exact Nat.le_succ _)
      intro x hx
      rw [hold x hx]; exact ⟨rfl, rfl, id⟩
    · constructor
      · intro fd' a ha
        rw [lookupId_mset him hi] at ha
        by_cases hf : fd' = fd
        · rw [if_pos hf] at ha
          injection ha with ha
          subst ha
          rw [hnew, merge_fd]; exact hf.symm
        · rw [if_neg hf] at ha
          rw [hold a (hk.bound_id fd' a ha)]; exact hk.key_id fd' a ha
      · intro p' a ha
        rw [lookupPth_mset hpm hp] at ha
        by_cases hpp : p' = p
        · rw [if_pos hpp] at ha
          injection ha with ha
          subst ha
          rw [hnew, merge_p]; exact hpp.symm
        · rw [if_neg hpp] at ha
          rw [hold a (hk.bound_pth p' a ha)]; exact hk.key_pth p' a ha
      · intro fd' a ha
        rw [lookupId_mset him hi] at ha
        rw [hn]
        by_cases hf : fd' = fd
        · rw [if_pos hf] at ha
          injection ha with ha
          subst ha
          exact Nat.lt_succ_self _
        · rw [if_neg hf] at ha
          exact Nat.lt_succ_of_lt (hk.bound_id fd' a ha)
      · intro p' a ha
        rw [lookupPth_mset hpm hp] at ha
        rw [hn]
        by_cases hpp : p' = p
        · rw [if_pos hpp] at ha
          injection ha with ha
          subst ha
          exact Nat.lt_succ_self _
        · rw [if_neg hpp] at ha
          exact Nat.lt_succ_of_lt (hk.bound_pth p' a ha)
      · intro fd' a ha
        rw [lookupId_mset him hi] at ha
        by_cases hf : fd' = fd
        · rw [if_pos hf] at ha
          injection ha with ha
          subst ha
          rw [hnew]; exact merge_nz _ e direct he
        · rw [if_neg hf] at ha
          rw [hold a (hk.bound_id fd' a ha)]; exact hk.nz_id fd' a ha
      · intro p' a ha
        rw [lookupPth_mset hpm hp] at ha
        by_cases hpp : p' = p
        · rw [if_pos hpp] at ha
          injection ha with ha
          subst ha
          rw [hnew]; exact merge_nz _ e direct he
        · rw [if_neg hpp] at ha
          rw [hold a (hk.bound_pth p' a ha)]; exact hk.nz_pth p' a ha

theorem singleunwatch_noEmpty (c : Consts) (os : OS) (k k' : kqueue) (p : String)
    (direct : Bool) (r : Option Err) (hk : NoEmpty k)
    (h : singleunwatch c os k p direct = .ret r k')
    (hr : r = none ∨ r = some .notWatched) : NoEmpty k' := by
  rcases singleunwatch_cases c os k k' p direct r h with
    ⟨_, hk', _⟩ | ⟨a, hl, hn, hh, hrest⟩
  · rw [hk']; exact hk
  · rcases hrest with ⟨_, _, n, hn'⟩ | ⟨_, _, hi, hp⟩
    · rcases hr with hr | hr
      · rw [hr] at hn'; exact Option.noConfusion hn'
      · rw [hr] at hn'
        injection hn' with hn'
        exact Err.noConfusion hn'
    · have hidne : ∀ fd' b, fd' ≠ (k.heap a).fd → lookupId k fd' = some b →
          k'.heap b = k.heap b := by
        intro fd' b hf hb
        have hba : b ≠ a := by
          intro hba
          apply hf
          rw [← hk.key_id fd' b hb, hba]
        rw [hh, Function.update_noteq hba]
      have hpthne : ∀ p' b, p' ≠ (k.heap a).p → lookupPth k p' = some b →
          k'.heap b = k.heap b := by
        intro p' b hpp hb
        have hba : b ≠ a := by
          intro hba
          apply hpp
          rw [← hk.key_pth p' b hb, hba]
        rw [hh, Function.update_noteq hba]
      constructor
      · intro fd' b hb
        rw [lookupId_mdel hi] at hb
        by_cases hf : fd' = (k.heap a).fd
        · rw [if_pos hf] at hb; exact Option.noConfusion hb
        · rw [if_neg hf] at hb
          rw [hidne fd' b hf hb]; exact hk.key_id fd' b hb
      · intro p' b hb
        rw [lookupPth_mdel hp] at hb
        by_cases hpp : p' = (k.heap a).p
        · rw [if_pos hpp] at hb; exact Option.noConfusion hb
        · rw [if_neg hpp] at hb
          rw [hpthne p' b hpp hb]; exact hk.key_pth p' b hb
      · intro fd' b hb
        rw [lookupId_mdel hi] at hb
        by_cases hf : fd' = (k.heap a).fd
        · rw [if_pos hf] at hb; exact Option.noConfusion hb
        · rw [if_neg hf] at hb
          rw [hn]; exact hk.bound_id fd' b hb
      · intro p' b hb
        rw [lookupPth_mdel hp] at hb
        by_cases hpp : p' = (k.heap a).p
        · rw [if_pos hpp] at hb; exact Option.noConfusion hb
        · rw [if_neg hpp] at hb
          rw [hn]; exact hk.bound_pth p' b hb
      · intro fd' b hb
        rw [lookupId_mdel hi] at hb
        by_cases hf : fd' = (k.heap a).fd
        · rw [if_pos hf] at hb; exact Option.noConfusion hb
        · rw [if_neg hf] at hb
          rw [hidne fd' b hf hb]; exact hk.nz_id fd' b hb
      · intro p' b hb
        rw [lookupPth_mdel hp] at hb
        by_cases hpp : p' = (k.heap a).p
        · rw [if_pos hpp] at hb; exact Option.noConfusion hb
        · rw [if_neg hpp] at hb
          rw [hpthne p' b hpp hb]; exact hk.nz_pth p' b hb

theorem ReachNonZero.noEmpty (c : Consts) (k : kqueue) (h : ReachNonZero c k) :
    NoEmpty k := by
  induction h with
  | init os k h0 => exact newWatcher_noEmpty os k h0
  | stepWatch os k k' p e direct dir r _ he hstep ih =>
    exact singlewatch_noEmpty c os k k' p e direct dir r ih he hstep
  | stepUnwatch os k k' p direct r _ hstep hr ih =>
    exact singleunwatch_noEmpty c os k k' p direct r ih hstep hr

theorem watchedOnce_reachNonZero : ReachNonZero sampleConsts watchedOnce :=
  ReachNonZero.stepWatch (okOS 4 false []) k0 watchedOnce "a" 0x400 true false none
    (ReachNonZero.init (okOS 4 false []) k0 rfl) (by decide) watchedOnce_eq

/-- C5, as stated, fails: on a new watcher, `singlewatch("a", 0, direct, file)` with every
system call succeeding returns `nil` and leaves an entry for `"a"` in both indexes whose
masks `eDir` and `eNonDir` are both zero. -/
theorem empty_mask_entry_after_singlewatch :
    newWatcher (okOS 4 false []) = .ret () k0 ∧
    (singlewatch sampleConsts (okOS 4 false []) k0 "a" 0 true false).val = some none ∧
    ((singlewatch sampleConsts (okOS 4 false []) k0 "a" 0 true false).state.bind
      (fun k => entryAt k "a")) = some ⟨"a", 4, false, 0, 0⟩ ∧
    ((singlewatch sampleConsts (okOS 4 false []) k0 "a" 0 true false).state.bind
      (fun k => entryOf k 4)) = some ⟨"a", 4, false, 0, 0⟩ := by
  refine ⟨rfl, ?_, ?_, ?_⟩ <;> decide

/-- C5, amended. No empty-mask entry: in every state a new watcher reaches by calls of
`singlewatch` with a mask that is not zero and calls of `singleunwatch` that return `nil` or
`errNotWatched`, whatever the other system calls answer, no record stored in either index has
both `eDir = 0` and `eNonDir = 0`. -/
theorem no_empty_mask_entry (c : Consts) (k : kqueue) (h : ReachNonZero c k) :
    (∀ fd a, lookupId k fd = some a → ¬ ((k.heap a).eDir = 0 ∧ (k.heap a).eNonDir = 0)) ∧
    (∀ p a, lookupPth k p = some a → ¬ ((k.heap a).eDir = 0 ∧ (k.heap a).eNonDir = 0)) := by
  have hk := ReachNonZero.noEmpty c k h
  constructor
  · intro fd a ha hz
    rcases hk.nz_id fd a ha with h1 | h2
    · exact h1 hz.1
    · exact h2 hz.2
  · intro p a ha hz
    rcases hk.nz_pth p a ha with h1 | h2
    · exact h1 hz.1
    · exact h2 hz.2

theorem no_empty_mask_entry_witness :
    ReachNonZero sampleConsts watchedOnce ∧
    (∀ fd a, lookupId watchedOnce fd = some a →
      ¬ ((watchedOnce.heap a).eDir = 0 ∧ (watchedOnce.heap a).eNonDir = 0)) ∧
    (∀ p a, lookupPth watchedOnce p = some a →
      ¬ ((watchedOnce.heap a).eDir = 0 ∧ (watchedOnce.heap a).eNonDir = 0)) :=
  ⟨watchedOnce_reachNonZero, no_empty_mask_entry sampleConsts watchedOnce watchedOnce_reachNonZero⟩

/-! ## `singlewatch` when every system call succeeds -/

theorem singlewatch_new (c : Consts) (os : OS) (k : kqueue) (p : String) (e : Event)
    (direct dir : Bool) (fd kq : Int) (im : List (Int × Nat)) (pm : List (String × Nat))
    (hp : lookupPth k p = none) (ho : os.sysOpen k.tick p = .ok fd) (hfd : k.fd = some kq)
    (hkev : os.sysKevent (k.tick + 1) = none) (him : k.idLkp = some im)
    (hpm : k.pthLkp = some pm) :
    singlewatch c os k p e direct dir = .ret none { k with
      idLkp := some (mset im fd k.next)
      pthLkp := some (mset pm p k.next)
      heap := Function.update k.heap k.next (merge ⟨p, fd, dir, 0, 0⟩ e direct)
      next := k.next + 1
      tick := k.tick + 1 + 1
      opened := fd :: k.opened
      changes := .add fd (mask c ((merge ⟨p, fd, dir, 0, 0⟩ e direct).eDir |||
        (merge ⟨p, fd, dir, 0, 0⟩ e direct).eNonDir)) :: k.changes } := by
  unfold singlewatch
  rw [hp]
  dsimp only
  rw [ho]
  dsimp only
  unfold subscribe
  dsimp only
  rw [hfd]
  dsimp only
  rw [hkev]
  dsimp only
  rw [if_neg (by simp), him, hpm]
  dsimp only
  rw [Function.update_same, Function.update_idem, merge_fd, merge_p]

theorem singlewatch_existing (c : Consts) (os : OS) (k : kqueue) (p : String) (e : Event)
    (direct dir : Bool) (a : Nat) (kq : Int)
    (hp : lookupPth k p = some a) (hfd : k.fd = some kq)
    (hkev : os.sysKevent k.tick = none) :
    singlewatch c os k p e direct dir = .ret (some .noNewWatch) { k with
      heap := Function.update k.heap a (merge (k.heap a) e direct)
      tick := k.tick + 1
      changes := .add (k.heap a).fd (mask c ((merge (k.heap a) e direct).eDir |||
        (merge (k.heap a) e direct).eNonDir)) :: k.changes } := by
  unfold singlewatch
  rw [hp]
  dsimp only
  unfold subscribe
  dsimp only
  rw [hfd]
  dsimp only
  rw [hkev]
  dsimp only
  rw [if_pos rfl, merge_fd]

/-! ## `Watch` on a file when every system call succeeds -/

theorem Watch_file_new (c : Consts) (os : OS) (k : kqueue) (p : String) (e : Event)
    (fd kq : Int) (im : List (Int × Nat)) (pm : List (String × Nat))
    (hstat : os.stat k.tick p = .ok false) (hlock : k.locked = false)
    (hp : lookupPth k p = none) (ho : os.sysOpen (k.tick + 1) p = .ok fd)
    (hfd : k.fd = some kq) (hkev : os.sysKevent (k.tick + 1 + 1) = none)
    (him : k.idLkp = some im) (hpm : k.pthLkp = some pm) :
    Watch c os k p e = .ret none { k with
      idLkp := some (mset im fd k.next)
      pthLkp := some (mset pm p k.next)
      locked := false
      heap := Function.update k.heap k.next (merge ⟨p, fd, false, 0, 0⟩ e true)
      next := k.next + 1
      tick := k.tick + 1 + 1 + 1
      opened := fd :: k.opened
      changes := .add fd (mask c ((merge ⟨p, fd, false, 0, 0⟩ e true).eDir |||
        (merge ⟨p, fd, false, 0, 0⟩ e true).eNonDir)) :: k.changes } := by
  unfold Watch
  rw [hstat]
  dsimp only
  rw [hlock, if_neg (by simp)]
  unfold watch
  dsimp only
  rw [singlewatch_new c os { k with tick := k.tick + 1, locked := true } p e true false fd kq
    im pm hp ho hfd hkev him hpm]
  dsimp only
  rw [if_neg (by simp)]

theorem Watch_file_existing (c : Consts) (os : OS) (k : kqueue) (p : String) (e : Event)
    (a : Nat) (kq : Int)
    (hstat : os.stat k.tick p = .ok false) (hlock : k.locked = false)
    (hp : lookupPth k p = some a) (hfd : k.fd = some kq)
    (hkev : os.sysKevent (k.tick + 1) = none) :
    Watch c os k p e = .ret none { k with
      locked := false
      heap := Function.update k.heap a (merge (k.heap a) e true)
      tick := k.tick + 1 + 1
      changes := .add (k.heap a).fd (mask c ((merge (k.heap a) e true).eDir |||
        (merge (k.heap a) e true).eNonDir)) :: k.changes } := by
  unfold Watch
  rw [hstat]
  dsimp only
  rw [hlock, if_neg (by simp)]
  unfold watch
  dsimp only
  rw [singlewatch_existing c os { k with tick := k.tick + 1, locked := true } p e true false a kq
    hp hfd hkev]
  dsimp only
  rw [if_neg (by simp), if_neg (by simp)]

theorem mergedAfter_of_ok (c : Consts) (os : OS) (k : kqueue) (p : String) (x y : Event)
    (kq : Int) (im : List (Int × Nat)) (pm : List (String × Nat))
    (hk : Consistent k) (hfd : k.fd = some kq) (him : k.idLkp = some im)
    (hpm : k.pthLkp = some pm) (hlock : k.locked = false) (hp : lookupPth k p = none)
    (hstat : ∀ t, os.stat t p = .ok false)
    (hopen : ∀ t, ∃ fd, os.sysOpen t p = .ok fd ∧ lookupId k fd = none)
    (hkev : ∀ t, os.sysKevent t = none) :
    MergedAfter c os k p x y (x ||| y) := by
  obtain ⟨fd, ho, hfresh⟩ := hopen (k.tick + 1)
  have h1 := Watch_file_new c os k p x fd kq im pm (hstat _) hlock hp ho hfd (hkev _) him hpm
  have hl1 : ∀ (k1 : kqueue), k1.pthLkp = some (mset pm p k.next) →
      lookupPth k1 p = some k.next := by
    intro k1 h
    unfold lookupPth
    rw [h]
    exact mget_mset_self pm p k.next
  refine ⟨_, _, _, k.next, fd, h1,
    Watch_file_existing c os _ p y k.next kq (hstat _) rfl (hl1 _ rfl) hfd (hkev _),
    singlewatch_existing c os _ p y true false k.next kq (hl1 _ rfl) hfd (hkev _),
    hl1 _ rfl, ?_, ?_, ?_, ?_, rfl, rfl⟩
  · unfold lookupId
    exact mget_mset_self im fd k.next
  · dsimp only
    rw [Function.update_same, Function.update_same]
    simp [merge]
  · intro p' a' ha' hpa'
    have hlk : lookupPth k p' = some a' → False := by
      intro hold
      have hb := hk.bound p' a' hold
      dsimp only at hpa'
      rw [Function.update_idem, Function.update_noteq (Nat.ne_of_lt hb)] at hpa'
      rw [(hk.pth_id p' a' hold).1] at hpa'
      rw [hpa', hp] at hold
      exact Option.noConfusion hold
    unfold lookupPth at ha'
    dsimp only at ha'
    by_cases hpp : p' = p
    · rw [hpp, mget_mset_self] at ha'
      injection ha' with ha'
      exact ha'.symm
    · rw [mget_mset_ne _ _ _ _ hpp] at ha'
      exact (hlk (by unfold lookupPth; rw [hpm]; exact ha')).elim
  · intro fd' a' ha' hpa'
    have hlk : lookupId k fd' = some a' → False := by
      intro hold
      obtain ⟨_, hpth⟩ := hk.id_pth fd' a' hold
      have hb := hk.bound _ a' hpth
      dsimp only at hpa'
      rw [Function.update_idem, Function.update_noteq (Nat.ne_of_lt hb)] at hpa'
      rw [hpa', hp] at hpth
      exact Option.noConfusion hpth
    unfold lookupId at ha'
    dsimp only at ha'
    by_cases hff : fd' = fd
    · rw [hff, mget_mset_self] at ha'
      injection ha' with ha'
      exact ha'.symm
    · rw [mget_mset_ne _ _ _ _ hff] at ha'
      exact (hlk (by unfold lookupId; rw [him]; exact ha')).elim

/-- C6. Repeated `Watch` merges: for a consistent table of a watcher that is not closed and
whose lock is free, a path `p` that is not a directory and has no entry, and masks `e1`, `e2`,
with every system call succeeding (and `syscall.Open` returning a descriptor no entry holds),
`Watch(p, e1)` then `Watch(p, e2)`, and also `Watch(p, e2)` then `Watch(p, e1)`, both return
`nil` and leave exactly one record for `p`, with `eDir = e1 | e2` and `eNonDir = 0`; a single
descriptor is opened and the second `singlewatch` reports `errNoNewWatch`. -/
theorem watch_twice_merges (c : Consts) (os : OS) (k : kqueue) (p : String) (e1 e2 : Event)
    (kq : Int) (im : List (Int × Nat)) (pm : List (String × Nat))
    (hk : Consistent k) (hfd : k.fd = some kq) (him : k.idLkp = some im)
    (hpm : k.pthLkp = some pm) (hlock : k.locked = false) (hp : lookupPth k p = none)
    (hstat : ∀ t, os.stat t p = .ok false)
    (hopen : ∀ t, ∃ fd, os.sysOpen t p = .ok fd ∧ lookupId k fd = none)
    (hkev : ∀ t, os.sysKevent t = none) :
    MergedAfter c os k p e1 e2 (e1 ||| e2) ∧ MergedAfter c os k p e2 e1 (e1 ||| e2) := by
  constructor
  · exact mergedAfter_of_ok c os k p e1 e2 kq im pm hk hfd him hpm hlock hp hstat hopen hkev
  · have h := mergedAfter_of_ok c os k p e2 e1 kq im pm hk hfd him hpm hlock hp hstat hopen hkev
    rw [Nat.lor_comm e2 e1] at h
    exact h

theorem k0_consistent : Consistent k0 :=
  newWatcher_consistent (okOS 4 false []) k0 rfl

theorem watch_twice_merges_witness :
    MergedAfter sampleConsts (okOS 4 false []) k0 "a" 0x400 0x200 (0x400 ||| 0x200) ∧
    MergedAfter sampleConsts (okOS 4 false []) k0 "a" 0x200 0x400 (0x400 ||| 0x200) :=
  watch_twice_merges sampleConsts (okOS 4 false []) k0 "a" 0x400 0x200 3 [] [] k0_consistent
    rfl rfl rfl rfl rfl (fun _ => rfl) (fun _ => ⟨4, rfl, rfl⟩) (fun _ => rfl)

/-- C7, the code at the failing input. The table holds one record for `"a"` with
`eDir = 0x400` and `eNonDir = 0x200`; `singleunwatch("a", direct)` with the kernel call
succeeding returns `nil`, but the record is gone from both indexes and its descriptor `4` is
closed: the test `w.eNonDir&w.eDir != 0` is never true after one of the masks was cleared. -/
theorem singleunwatch_drops_wanted_entry :
    entryAt watchedBoth "a" = some ⟨"a", 4, false, 0x400, 0x200⟩ ∧
    entryOf watchedBoth 4 = some ⟨"a", 4, false, 0x400, 0x200⟩ ∧
    (singleunwatch sampleConsts (okOS 4 false []) watchedBoth "a" true).val = some none ∧
    ((singleunwatch sampleConsts (okOS 4 false []) watchedBoth "a" true).state.bind
      (fun k => entryAt k "a")) = none ∧
    ((singleunwatch sampleConsts (okOS 4 false []) watchedBoth "a" true).state.bind
      (fun k => entryOf k 4)) = none ∧
    ((singleunwatch sampleConsts (okOS 4 false []) watchedBoth "a" true).state.map
      (fun k => k.closed)) = some [4] := by
  refine ⟨?_, ?_, ?_, ?_, ?_, ?_⟩ <;> decide

/-! ## `Unwatch` of a path that has no entry -/

theorem singleunwatch_absent (c : Consts) (os : OS) (k : kqueue) (p : String) (direct : Bool)
    (hp : lookupPth k p = none) :
    singleunwatch c os k p direct = .ret (some .notWatched) k := by
  unfold singleunwatch
  rw [hp]

theorem walkLoop_unwatch_absent (c : Consts) (os : OS) (k : kqueue) (p : String) :
    ∀ ls : List FileInfo,
      (∀ fi, (ls.filter (fun fi => !fi.isDir)).head? = some fi →
        lookupPth k (join p fi.name) = none) →
      walkLoop (fun k1 fi =>
          if !fi.isDir then singleunwatch c os k1 (join p fi.name) false else .ret none k1) k ls
        = .ret none k ∨
      walkLoop (fun k1 fi =>
          if !fi.isDir then singleunwatch c os k1 (join p fi.name) false else .ret none k1) k ls
        = .ret (some .notWatched) k := by
  intro ls
  induction ls with
  | nil => intro _; left; rfl
  | cons fi rest ih =>
    intro hfirst
    unfold walkLoop
    cases hd : fi.isDir with
    | true =>
      rw [if_neg (by simp)]
      dsimp only
      apply ih
      intro fi' hfi'
      apply hfirst fi'
      rw [List.filter_cons, hd]
      exact hfi'
    | false =>
      right
      have hnone : lookupPth k (join p fi.name) = none := by
        apply hfirst fi
        rw [List.filter_cons, hd]
        rfl
      rw [if_pos (by rfl), singleunwatch_absent c os k _ false hnone]

/-- C8, as stated, fails: the table holds one record, for the file `d/a`, watched indirectly;
the directory `d` has no entry and lists the file `a`.  `Unwatch("d")` with every system call
succeeding returns `errNotWatched`, but the record of `d/a` is gone from both indexes and its
descriptor `4` is closed. -/
theorem unwatch_unwatched_dir_changes_table :
    entryAt watchedChild "d" = none ∧
    entryAt watchedChild "d/a" = some ⟨"d/a", 4, false, 0, 0x400⟩ ∧
    watchedChild.closed = [] ∧
    (Unwatch sampleConsts (okOS 4 true [⟨"a", false⟩]) watchedChild "d").val
      = some (some .notWatched) ∧
    ((Unwatch sampleConsts (okOS 4 true [⟨"a", false⟩]) watchedChild "d").state.bind
      (fun k => entryAt k "d/a")) = none ∧
    ((Unwatch sampleConsts (okOS 4 true [⟨"a", false⟩]) watchedChild "d").state.bind
      (fun k => entryOf k 4)) = none ∧
    ((Unwatch sampleConsts (okOS 4 true [⟨"a", false⟩]) watchedChild "d").state.map
      (fun k => k.closed)) = some [4] := by
  refine ⟨?_, ?_, ?_, ?_, ?_, ?_, ?_⟩ <;> decide

/-- C8, amended. `Unwatch` of an unwatched path fails without effect when no child is
touched first: for every state with the lock free and every path `p` that has no entry and is
a file, or is a directory whose listing can be read and whose first listed non-directory
child, if there is one, has no entry, `Unwatch(p)` returns `errNotWatched` and leaves the
state as it was (both indexes, every record, the opened and closed descriptors, the lock);
only the count of answers taken from the operating system advances. -/
theorem unwatch_unwatched (c : Consts) (os : OS) (k : kqueue) (p : String) (b : Bool)
    (ls : List FileInfo) (hlock : k.locked = false) (hp : lookupPth k p = none)
    (hstat : os.stat k.tick p = .ok b)
    (hdir : b = true → os.readdir (k.tick + 1) p = .ok ls ∧
      ∀ fi, (ls.filter (fun fi => !fi.isDir)).head? = some fi →
        lookupPth k (join p fi.name) = none) :
    ∃ k', Unwatch c os k p = .ret (some .notWatched) k' ∧ k' = { k with tick := k'.tick } := by
  have heta : ∀ (t : Nat), ({ k with tick := t, locked := false } : kqueue)
      = { k with tick := t } := by
    intro t
    cases k
    simp only at hlock
    subst hlock
    rfl
  have hp' : ∀ (t : Nat) (l : Bool),
      lookupPth ({ k with tick := t, locked := l } : kqueue) p = none := fun _ _ => hp
  have main : ∃ t, Unwatch c os k p
      = .ret (some .notWatched) { k with tick := t, locked := false } := by
    unfold Unwatch
    rw [hstat]
    dsimp only
    rw [hlock, if_neg (by simp)]
    unfold unwatch
    cases b with
    | false =>
      rw [if_neg (by simp), singleunwatch_absent c os _ p true (hp' _ _)]
      exact ⟨_, rfl⟩
    | true =>
      obtain ⟨hrd, hfirst⟩ := hdir rfl
      rw [if_pos rfl]
      unfold walk
      dsimp only
      rw [hrd]
      dsimp only
      rcases walkLoop_unwatch_absent c os
        { k with tick := k.tick + 1 + 1, locked := true } p ls hfirst with h | h
      · rw [h]
        dsimp only
        rw [singleunwatch_absent c os _ p true (hp' _ _)]
        exact ⟨_, rfl⟩
      · rw [h]
        exact ⟨_, rfl⟩
  obtain ⟨t, ht⟩ := main
  exact ⟨_, ht, heta t⟩

theorem unwatch_unwatched_witness :
    ∃ k', Unwatch sampleConsts (okOS 4 true [⟨"b", true⟩, ⟨"c", false⟩]) watchedChild "d"
      = .ret (some .notWatched) k' ∧ k' = { watchedChild with tick := k'.tick } :=
  unwatch_unwatched sampleConsts (okOS 4 true [⟨"b", true⟩, ⟨"c", false⟩]) watchedChild "d" true
    [⟨"b", true⟩, ⟨"c", false⟩] rfl (by decide) rfl
    (fun _ => ⟨rfl, fun fi hfi => by
      have h : fi = ⟨"c", false⟩ := by
        have h' : some (⟨"c", false⟩ : FileInfo) = some fi := hfi
        injection h' with h'
        exact h'.symm
      subst h
      decide⟩)

/-- C9, the code at the failing input. On a new watcher, for the file `"a"`: when
`syscall.Open` fails with `ENOENT`, and also when `syscall.Open` succeeds and `syscall.Kevent`
fails with `ENOMEM`, the `singlewatch` call inside `watch` returns the error but `Watch`
returns `nil`, and no entry for `"a"` exists afterwards. -/
theorem Watch_swallows_registration_failure :
    (singlewatch sampleConsts failOpenOS { k0 with tick := 1, locked := true } "a" 0x400
      true false).val = some (some (.sys 2)) ∧
    (Watch sampleConsts failOpenOS k0 "a" 0x400).val = some none ∧
    ((Watch sampleConsts failOpenOS k0 "a" 0x400).state.bind (fun k => entryAt k "a")) = none ∧
    (singlewatch sampleConsts failKeventOS { k0 with tick := 1, locked := true } "a" 0x400
      true false).val = some (some (.sys 12)) ∧
    (Watch sampleConsts failKeventOS k0 "a" 0x400).val = some none ∧
    ((Watch sampleConsts failKeventOS k0 "a" 0x400).state.bind (fun k => entryAt k "a")) = none := by
  refine ⟨?_, ?_, ?_, ?_, ?_, ?_⟩ <;> decide

/-- C10, the code at the failing input. On a new watcher, `singlewatch("a", 0x400, direct,
file)` with `syscall.Open` returning `4` and `syscall.Kevent` failing with `ENOMEM` returns that
error; afterwards descriptor `4` has been opened and not closed, and neither index holds an
entry for it. -/
theorem singlewatch_leaks_descriptor :
    (singlewatch sampleConsts failKeventOS k0 "a" 0x400 true false).val
      = some (some (.sys 12)) ∧
    ((singlewatch sampleConsts failKeventOS k0 "a" 0x400 true false).state.map
      (fun k => k.opened)) = some [4] ∧
    ((singlewatch sampleConsts failKeventOS k0 "a" 0x400 true false).state.map
      (fun k => k.closed)) = some [] ∧
    ((singlewatch sampleConsts failKeventOS k0 "a" 0x400 true false).state.bind
      (fun k => entryOf k 4)) = none ∧
    ((singlewatch sampleConsts failKeventOS k0 "a" 0x400 true false).state.bind
      (fun k => entryAt k "a")) = none ∧
    ((singlewatch sampleConsts failKeventOS k0 "a" 0x400 true false).state.map
      (fun k => (k.idLkp, k.pthLkp))) = some (some [], some []) := by
  refine ⟨?_, ?_, ?_, ?_, ?_, ?_⟩ <;> decide

/-! ## The order in which `ekind` is visited -/

theorem maskStep_comm (e z : Nat) (a b : Event × Event) (ha : a.1 < 2 ^ 32)
    (hb : b.1 < 2 ^ 32) (hab : a.1 &&& b.2 = 0) (hba : b.1 &&& a.2 = 0) :
    maskStep e (maskStep e z a) b = maskStep e (maskStep e z b) a := by
  unfold maskStep
  by_cases h1 : e &&& a.2 ≠ 0
  · by_cases h2 : e &&& b.2 ≠ 0
    · rw [if_pos h1, if_pos h2, if_pos h2, if_pos h1]
      apply Nat.eq_of_testBit_eq
      intro i
      have k1 : (a.1.testBit i && b.2.testBit i) = false := by
        rw [← Nat.testBit_and, hab]; simp
      have k2 : (b.1.testBit i && a.2.testBit i) = false := by
        rw [← Nat.testBit_and, hba]; simp
      have k3 : a.1.testBit i = true → decide (i < 32) = true :=
        fun h => by simpa using testBit_of_lt ha h
      have k4 : b.1.testBit i = true → decide (i < 32) = true :=
        fun h => by simpa using testBit_of_lt hb h
      unfold bitClear
      simp only [Nat.testBit_or, Nat.testBit_and, testBit_compl32]
      generalize z.testBit i = zb
      generalize a.1.testBit i = a1 at k1 k2 k3 k4 ⊢
      generalize a.2.testBit i = a2 at k1 k2 k3 k4 ⊢
      generalize b.1.testBit i = b1 at k1 k2 k3 k4 ⊢
      generalize b.2.testBit i = b2 at k1 k2 k3 k4 ⊢
      generalize decide (i < 32) = lt at k3 k4 ⊢
      revert k1 k2 k3 k4
      cases zb <;> cases a1 <;> cases a2 <;> cases b1 <;> cases b2 <;> cases lt <;> simp
    · rw [if_pos h1, if_neg h2, if_neg h2, if_pos h1]
  · by_cases h2 : e &&& b.2 ≠ 0
    · rw [if_neg h1, if_pos h2, if_neg h1]
    · rw [if_neg h1, if_neg h2, if_neg h1]

theorem unmaskStep_eq_or (o w z : Nat) (a : Event × Event) :
    unmaskStep o w z a = z ||| unmaskStep o w 0 a := by
  unfold unmaskStep
  by_cases h0 : o &&& a.1 ≠ 0
  · rw [if_pos h0, if_pos h0]
    dsimp only
    by_cases h1 : w &&& a.1 ≠ 0
    · by_cases h2 : w &&& a.2 ≠ 0
      · rw [if_pos h1, if_pos h2, if_pos h1, if_pos h2, Nat.zero_or, Nat.lor_assoc]
      · rw [if_pos h1, if_neg h2, if_pos h1, if_neg h2, Nat.zero_or]
    · by_cases h2 : w &&& a.2 ≠ 0
      · rw [if_neg h1, if_pos h2, if_neg h1, if_pos h2, Nat.zero_or]
      · rw [if_neg h1, if_neg h2, if_neg h1, if_neg h2, Nat.or_zero]
  · rw [if_neg h0, if_neg h0, Nat.or_zero]

theorem unmaskStep_comm (o w z : Nat) (a b : Event × Event) :
    unmaskStep o w (unmaskStep o w z a) b = unmaskStep o w (unmaskStep o w z b) a := by
  rw [unmaskStep_eq_or o w (unmaskStep o w z a) b, unmaskStep_eq_or o w z a,
    unmaskStep_eq_or o w (unmaskStep o w z b) a, unmaskStep_eq_or o w z b,
    Nat.lor_assoc, Nat.lor_assoc, Nat.lor_comm (unmaskStep o w 0 a)]

/-- C20. The codec does not depend on the order in which `range` visits `ekind`: when no
key of the table shares a bit with a value of the table (and the keys are 32-bit words), then
for every list `l` that holds the entries of `ekind` in another order, every event mask `e`,
raw flag word `o` and watched mask `w`, `mask e` and `unmask o w` computed over `l` equal
those computed over `ekind`. -/
theorem codec_order_independent (c : Consts) (l : List (Event × Event))
    (hperm : l.Perm c.ekind) (hlt : ∀ kn ∈ c.ekind, kn.1 < 2 ^ 32)
    (hdisj : ∀ kn ∈ c.ekind, ∀ kn' ∈ c.ekind, kn.1 &&& kn'.2 = 0) (e : Event) (o : Nat)
    (w : Event) :
    mask { c with ekind := l } e = mask c e ∧
    unmask { c with ekind := l } o w = unmask c o w := by
  constructor
  · unfold mask
    dsimp only
    apply List.Perm.foldl_eq' hperm
    intro x hx y hy z
    have hx' := hperm.subset hx
    have hy' := hperm.subset hy
    exact maskStep_comm e z x y (hlt x hx') (hlt y hy') (hdisj x hx' y hy') (hdisj y hy' x hx')
  · unfold unmask
    dsimp only
    rw [List.Perm.foldl_eq' hperm (fun x _ y _ z => unmaskStep_comm o w z x y) 0]

theorem codec_order_independent_witness :
    mask { sampleConsts with ekind := [(0x1, 0x200), (0x20, 0x800), (0x2, 0x400)] } 0xF00
      = mask sampleConsts 0xF00 ∧
    unmask { sampleConsts with ekind := [(0x1, 0x200), (0x20, 0x800), (0x2, 0x400)] } 0x23 0xE00
      = unmask sampleConsts 0x23 0xE00 :=
  codec_order_independent sampleConsts [(0x1, 0x200), (0x20, 0x800), (0x2, 0x400)]
    (List.reverse_perm [(0x2, 0x400), (0x20, 0x800), (0x1, 0x200)]) (by decide) (by decide)
    0xF00 0x23 0xE00

/-! ## One iteration of `monitor` -/

/-- C19, the code at the failing input. On the new watcher `k0`, whose lock is free, an
iteration of `monitor` that reads a notification for descriptor `7`, which no entry holds,
queues no event and leaves both indexes as they were, but it ends with the lock held: the
`continue` at the stale descriptor skips `Unlock`.  The next iteration that reads a
notification, and every `Watch` and `Unwatch`, then waits for the lock for ever. -/
theorem monitor_stale_keeps_lock :
    k0.locked = false ∧ lookupId k0 7 = none ∧
    (monitorIter sampleConsts (okOS 4 false []) k0 (.ok (some (7, 0x2)))).val = some [] ∧
    staleState.idLkp = k0.idLkp ∧ staleState.pthLkp = k0.pthLkp ∧
    staleState.locked = true ∧
    (monitorIter sampleConsts (okOS 4 false []) staleState (.ok (some (7, 0x2)))).blocked
      = true ∧
    (Watch sampleConsts (okOS 4 false []) staleState "a" 0x400).blocked = true ∧
    (Unwatch sampleConsts (okOS 4 false []) staleState "a").blocked = true := by
  refine ⟨rfl, ?_, ?_, ?_, ?_, ?_, ?_, ?_, ?_⟩ <;> decide

theorem and_compl32_self (x w : Nat) (hw : w < 2 ^ 32) : x &&& compl32 w &&& w = 0 := by
  apply Nat.eq_of_testBit_eq
  intro i
  simp only [Nat.testBit_and, testBit_compl32, Nat.zero_testBit]
  cases hwi : w.testBit i
  · simp
  · have hi : i < 32 := testBit_of_lt hw hwi
    simp [hi]

theorem and_compl32_compl32 (x v w : Nat) (hv : v < 2 ^ 32) (hw : w < 2 ^ 32) :
    x &&& compl32 v &&& compl32 w &&& v = 0 ∧ x &&& compl32 v &&& compl32 w &&& w = 0 := by
  constructor
  · rw [Nat.and_assoc (x &&& compl32 v), Nat.and_comm (compl32 w) v,
      ← Nat.and_assoc (x &&& compl32 v), and_compl32_self x v hv, Nat.zero_and]
  · exact and_compl32_self _ w hw

theorem watchedDir_eq :
    singlewatch sampleConsts (okOS 4 true []) k0 "d" 0x500 true true
      = .ret none watchedDir := rfl

theorem watchedDir_consistent : Consistent watchedDir :=
  singlewatch_consistent sampleConsts (okOS 4 true []) k0 watchedDir "d" 0x500 true true none
    k0_consistent (fun _ _ => rfl) watchedDir_eq

theorem watchedOnce_consistent : Consistent watchedOnce :=
  Reach.consistent sampleConsts watchedOnce watchedOnce_reach

/-- C14. Directory delete notification: for a consistent table of a watcher that is not
closed and whose lock is free, a directory record `w` stored under descriptor `ident`, and
flags that hold `NOTE_DELETE`, one iteration of `monitor` queues exactly one event, with
`isdir = true`, path `w.p` and mask `unmask(flags, w.eDir|w.eNonDir) & ^Write & ^NOTE_WRITE`
(which has the `Write` and `NOTE_WRITE` bits clear); it asks the operating system for no
listing and allocates and registers no record, removes `w` from both indexes, closes `w.fd`
once, and ends with the lock free. -/
theorem monitor_dir_delete (c : Consts) (os : OS) (k : kqueue) (ident : Int) (fflags : Nat)
    (a : Nat) (kq : Int) (hk : Consistent k) (hfd : k.fd = some kq) (hlock : k.locked = false)
    (ha : lookupId k ident = some a) (hdir : (k.heap a).dir = true)
    (hdel : fflags &&& c.NOTE_DELETE ≠ 0) (hW : c.Write < 2 ^ 32)
    (hNW : c.NOTE_WRITE < 2 ^ 32) :
    ∃ (k' : kqueue) (m : Event),
      monitorIter c os k (.ok (some (ident, fflags)))
        = .ret [⟨true, (k.heap a).p, m, some (ident, fflags)⟩] k' ∧
      m = unmask c fflags ((k.heap a).eDir ||| (k.heap a).eNonDir)
            &&& compl32 c.Write &&& compl32 c.NOTE_WRITE ∧
      m &&& c.Write = 0 ∧ m &&& c.NOTE_WRITE = 0 ∧
      k'.tick = k.tick ∧ k'.next = k.next ∧ k'.opened = k.opened ∧ k'.changes = k.changes ∧
      (∀ q, q ≠ (k.heap a).p → lookupPth k' q = lookupPth k q) ∧
      lookupId k' ident = none ∧ lookupPth k' (k.heap a).p = none ∧
      k'.closed = ident :: k.closed ∧ k'.locked = false := by
  have hfdeq : (k.heap a).fd = ident := (hk.id_pth ident a ha).1
  have hmask := and_compl32_compl32
    (unmask c fflags ((k.heap a).eDir ||| (k.heap a).eNonDir)) c.Write c.NOTE_WRITE hW hNW
  refine ⟨{ del { k with locked := true } a with locked := false }, _, ?_, rfl, hmask.1,
    hmask.2, rfl, rfl, rfl, rfl, ?_, ?_, ?_, ?_, rfl⟩
  · unfold monitorIter
    rw [hfd]
    dsimp only
    rw [hlock, if_neg (by simp)]
    have hl : lookupId { k with fd := some kq, locked := true } ident = some a := ha
    rw [hl]
    dsimp only
    rw [hdir, if_pos rfl, if_pos hdel]
  · intro q hq
    rw [@lookupPth_mdel k _ (k.heap a).p rfl q, if_neg hq]
  · rw [@lookupId_mdel k _ (k.heap a).fd rfl ident, if_pos hfdeq.symm]
  · rw [@lookupPth_mdel k _ (k.heap a).p rfl (k.heap a).p, if_pos rfl]
  · show (k.heap a).fd :: k.closed = ident :: k.closed
    rw [hfdeq]

theorem monitor_dir_delete_witness :
    ∃ (k' : kqueue) (m : Event),
      monitorIter sampleConsts (okOS 4 true []) watchedDir (.ok (some (4, 0x3)))
        = .ret [⟨true, (watchedDir.heap 0).p, m, some (4, 0x3)⟩] k' ∧
      m = unmask sampleConsts 0x3 ((watchedDir.heap 0).eDir ||| (watchedDir.heap 0).eNonDir)
            &&& compl32 sampleConsts.Write &&& compl32 sampleConsts.NOTE_WRITE ∧
      m &&& sampleConsts.Write = 0 ∧ m &&& sampleConsts.NOTE_WRITE = 0 ∧
      k'.tick = watchedDir.tick ∧ k'.next = watchedDir.next ∧
      k'.opened = watchedDir.opened ∧ k'.changes = watchedDir.changes ∧
      (∀ q, q ≠ (watchedDir.heap 0).p → lookupPth k' q = lookupPth watchedDir q) ∧
      lookupId k' 4 = none ∧ lookupPth k' (watchedDir.heap 0).p = none ∧
      k'.closed = 4 :: watchedDir.closed ∧ k'.locked = false :=
  monitor_dir_delete sampleConsts (okOS 4 true []) watchedDir 4 0x3 0 3 watchedDir_consistent
    rfl rfl (by decide) (by decide) (by decide) (by decide) (by decide)

theorem unmask_sub (c : Consts) (o w : Nat) (hbit : ∀ kn ∈ c.ekind, IsBit kn.1 ∧ IsBit kn.2) :
    ∀ i, (unmask c o w).testBit i = true → w.testBit i = true := by
  intro i hi
  unfold unmask at hi
  rw [Nat.testBit_or, Bool.or_eq_true] at hi
  rcases hi with hi | hi
  · exact unmaskFold_sub o w c.ekind 0 hbit (by intro j hj; simp at hj) i hi
  · rw [Nat.testBit_and, Bool.and_eq_true] at hi
    exact hi.2

theorem unmask_note_write (c : Consts) (hbit : ∀ kn ∈ c.ekind, IsBit kn.1 ∧ IsBit kn.2)
    (hmem : (c.NOTE_WRITE, c.Write) ∈ c.ekind) :
    unmask c c.NOTE_WRITE c.Write = c.Write := by
  have hself : ∀ x, IsBit x → x &&& x ≠ 0 := by
    intro x hx
    obtain ⟨j, _, rfl⟩ := hx
    exact (and_two_pow_ne_zero _ j).mpr Nat.testBit_two_pow_self
  apply Nat.eq_of_testBit_eq
  intro i
  cases hw : c.Write.testBit i
  · cases hu : (unmask c c.NOTE_WRITE c.Write).testBit i
    · rfl
    · rw [unmask_sub c _ _ hbit i hu] at hw
      exact Bool.noConfusion hw
  · unfold unmask
    rw [Nat.testBit_or, unmaskFold_value c.NOTE_WRITE c.Write i c.ekind 0
      (c.NOTE_WRITE, c.Write) hmem (hself _ (hbit _ hmem).1) (hself _ (hbit _ hmem).2) hw]
    rfl

/-- C17. Notification for a file: for a consistent table of a watcher that is not closed and
whose lock is free, a record `w` that is not a directory, stored under descriptor `ident`,
and any flags `f`, one iteration of `monitor` queues exactly one event, with `isdir = false`,
path `w.p` and mask `unmask(f, w.eDir|w.eNonDir)`, and ends with the lock free; `w` is
removed from both indexes if `f` holds `NOTE_DELETE` and stays in both otherwise.  When
`ekind` (all of whose entries are single bits) maps `NOTE_WRITE` to `Write`, a record watched
for `Write` that receives `f = NOTE_WRITE` yields the mask `Write`. -/
theorem monitor_file_event (c : Consts) (os : OS) (k : kqueue) (ident : Int) (fflags : Nat)
    (a : Nat) (kq : Int) (hk : Consistent k) (hfd : k.fd = some kq) (hlock : k.locked = false)
    (ha : lookupId k ident = some a) (hdir : (k.heap a).dir = false) :
    ∃ k' : kqueue,
      monitorIter c os k (.ok (some (ident, fflags)))
        = .ret [⟨false, (k.heap a).p,
            unmask c fflags ((k.heap a).eDir ||| (k.heap a).eNonDir), some (ident, fflags)⟩] k' ∧
      k'.locked = false ∧
      (fflags &&& c.NOTE_DELETE ≠ 0 →
        lookupId k' ident = none ∧ lookupPth k' (k.heap a).p = none) ∧
      (fflags &&& c.NOTE_DELETE = 0 →
        lookupId k' ident = some a ∧ lookupPth k' (k.heap a).p = some a ∧
        k'.heap a = k.heap a) ∧
      ((∀ kn ∈ c.ekind, IsBit kn.1 ∧ IsBit kn.2) → (c.NOTE_WRITE, c.Write) ∈ c.ekind →
        fflags = c.NOTE_WRITE → (k.heap a).eDir ||| (k.heap a).eNonDir = c.Write →
        unmask c fflags ((k.heap a).eDir ||| (k.heap a).eNonDir) = c.Write) := by
  have hfdeq : (k.heap a).fd = ident := (hk.id_pth ident a ha).1
  have hpth : lookupPth k (k.heap a).p = some a := (hk.id_pth ident a ha).2
  have hrun : monitorIter c os k (.ok (some (ident, fflags)))
      = monitorEnd c { k with locked := true } a fflags
          [⟨false, (k.heap a).p,
            unmask c fflags ((k.heap a).eDir ||| (k.heap a).eNonDir), some (ident, fflags)⟩] := by
    unfold monitorIter
    rw [hfd]
    dsimp only
    rw [hlock, if_neg (by simp)]
    have hl : lookupId { k with fd := some kq, locked := true } ident = some a := ha
    rw [hl]
    dsimp only
    rw [hdir, if_neg (by simp)]
  have hlast : (∀ kn ∈ c.ekind, IsBit kn.1 ∧ IsBit kn.2) → (c.NOTE_WRITE, c.Write) ∈ c.ekind →
      fflags = c.NOTE_WRITE → (k.heap a).eDir ||| (k.heap a).eNonDir = c.Write →
      unmask c fflags ((k.heap a).eDir ||| (k.heap a).eNonDir) = c.Write := by
    intro hbit hmem hf hw
    rw [hf, hw]
    exact unmask_note_write c hbit hmem
  rw [hrun]
  unfold monitorEnd
  dsimp only
  by_cases hdel : fflags &&& c.NOTE_DELETE ≠ 0
  · rw [if_pos hdel]
    refine ⟨_, rfl, rfl, ?_, ?_, hlast⟩
    · intro _
      constructor
      · rw [@lookupId_mdel k _ (k.heap a).fd rfl ident, if_pos hfdeq.symm]
      · rw [@lookupPth_mdel k _ (k.heap a).p rfl (k.heap a).p, if_pos rfl]
    · intro h0
      exact absurd h0 hdel
  · rw [if_neg hdel]
    refine ⟨_, rfl, rfl, ?_, ?_, hlast⟩
    · intro h1
      exact absurd h1 hdel
    · intro _
      exact ⟨ha, hpth, rfl⟩

theorem monitor_file_event_witness :
    ∃ k' : kqueue,
      monitorIter sampleConsts (okOS 4 false []) watchedOnce (.ok (some (4, 0x2)))
        = .ret [⟨false, (watchedOnce.heap 0).p,
            unmask sampleConsts 0x2 ((watchedOnce.heap 0).eDir ||| (watchedOnce.heap 0).eNonDir),
            some (4, 0x2)⟩] k' ∧
      k'.locked = false ∧
      (0x2 &&& sampleConsts.NOTE_DELETE ≠ 0 →
        lookupId k' 4 = none ∧ lookupPth k' (watchedOnce.heap 0).p = none) ∧
      (0x2 &&& sampleConsts.NOTE_DELETE = 0 →
        lookupId k' 4 = some 0 ∧ lookupPth k' (watchedOnce.heap 0).p = some 0 ∧
        k'.heap 0 = watchedOnce.heap 0) ∧
      ((∀ kn ∈ sampleConsts.ekind, IsBit kn.1 ∧ IsBit kn.2) →
        (sampleConsts.NOTE_WRITE, sampleConsts.Write) ∈ sampleConsts.ekind →
        0x2 = sampleConsts.NOTE_WRITE →
        (watchedOnce.heap 0).eDir ||| (watchedOnce.heap 0).eNonDir = sampleConsts.Write →
        unmask sampleConsts 0x2 ((watchedOnce.heap 0).eDir ||| (watchedOnce.heap 0).eNonDir)
          = sampleConsts.Write) :=
  monitor_file_event sampleConsts (okOS 4 false []) watchedOnce 4 0x2 0 3
    watchedOnce_consistent rfl rfl (by decide) (by decide)

/-! ## `Close` -/

theorem closeFold_eq (m : List (Int × Nat)) :
    ∀ st : kqueue,
      m.foldl (fun st kv => { st with closed := (st.heap kv.2).fd :: st.closed }) st
        = { st with closed := (m.map (fun kv => (st.heap kv.2).fd)).reverse ++ st.closed } := by
  induction m with
  | nil => intro st; rfl
  | cons kv rest ih =>
    intro st
    rw [List.foldl_cons, ih]
    simp only [List.map_cons, List.reverse_cons, List.append_assoc, List.singleton_append]

theorem mget_of_mem_nodup {κ : Type} [DecidableEq κ] (m : List (κ × Nat))
    (hnd : (m.map Prod.fst).Nodup) (key : κ) (v : Nat) (hmem : (key, v) ∈ m) :
    mget m key = some v := by
  induction m with
  | nil => simp at hmem
  | cons kv rest ih =>
    obtain ⟨k', v'⟩ := kv
    rw [List.map_cons, List.nodup_cons] at hnd
    rcases List.mem_cons.mp hmem with heq | hin
    · injection heq with h1 h2
      subst h1 h2
      rw [mget, if_pos rfl]
    · have hne : k' ≠ key := by
        intro h
        apply hnd.1
        rw [h]
        exact List.mem_map.mpr ⟨(key, v), hin, rfl⟩
      rw [mget, if_neg hne]
      exact ih hnd.2 hin

theorem mget_ne_none_iff {κ : Type} [DecidableEq κ] (m : List (κ × Nat)) (key : κ) :
    mget m key ≠ none ↔ key ∈ m.map Prod.fst := by
  induction m with
  | nil => simp [mget]
  | cons kv rest ih =>
    obtain ⟨k', v'⟩ := kv
    by_cases h : k' = key
    · rw [mget, if_pos h, List.map_cons, h]
      simp
    · rw [mget, if_neg h, ih, List.map_cons, List.mem_cons]
      constructor
      · exact Or.inr
      · rintro (h' | h')
        · exact absurd h'.symm h
        · exact h'

theorem stored_fd_eq_key (k : kqueue) (hk : Consistent k)
    (hnd : ((k.idLkp.getD []).map Prod.fst).Nodup) :
    (k.idLkp.getD []).map (fun kv => (k.heap kv.2).fd) = (k.idLkp.getD []).map Prod.fst := by
  apply List.map_congr_left
  intro kv hkv
  have hl : lookupId k kv.1 = some kv.2 := by
    unfold lookupId
    cases hid : k.idLkp with
    | none => rw [hid] at hkv; simp at hkv
    | some m =>
      rw [hid] at hkv hnd
      exact mget_of_mem_nodup m hnd kv.1 kv.2 hkv
  exact (hk.id_pth kv.1 kv.2 hl).1

theorem Close_eq (k : kqueue) (hlock : k.locked = false) :
    Close k = .ret none { k with
      fd := none, idLkp := none, pthLkp := none, s := false, locked := false
      closed := k.fd.toList ++
        ((k.idLkp.getD []).map (fun kv => (k.heap kv.2).fd)).reverse ++ k.closed } := by
  unfold Close
  rw [hlock, if_neg (by simp)]
  dsimp only
  cases hs : k.s <;> cases hf : k.fd <;> simp [closeFold_eq]

/-- C18. `Close` is an idempotent full teardown: for a consistent table (whose descriptor
index lists each key once) with the lock free, `Close` returns `nil`; the descriptors it
passes to `syscall.Close` are the kqueue descriptor, if any, and the descriptors `tbl` of the
table, each descriptor that has an entry exactly once; afterwards the kqueue descriptor is
`nil`, both indexes are empty and the lock is free.  A second `Close` on the resulting state
returns `nil` and leaves the state, and so the closed descriptors, unchanged. -/
theorem Close_teardown (k : kqueue) (hlock : k.locked = false) (hk : Consistent k)
    (hnd : ((k.idLkp.getD []).map Prod.fst).Nodup) :
    ∃ (k' : kqueue) (tbl : List Int),
      Close k = .ret none k' ∧
      k'.closed = k.fd.toList ++ tbl ++ k.closed ∧
      tbl.Nodup ∧ (∀ fd, fd ∈ tbl ↔ lookupId k fd ≠ none) ∧
      k'.fd = none ∧ (∀ fd, lookupId k' fd = none) ∧ (∀ p, lookupPth k' p = none) ∧
      k'.idLkp = none ∧ k'.pthLkp = none ∧ k'.locked = false ∧
      Close k' = .ret none k' := by
  refine ⟨_, ((k.idLkp.getD []).map Prod.fst).reverse, Close_eq k hlock, ?_, ?_, ?_, rfl,
    fun _ => rfl, fun _ => rfl, rfl, rfl, rfl, ?_⟩
  · dsimp only
    rw [stored_fd_eq_key k hk hnd]
  · exact List.nodup_reverse.mpr hnd
  · intro fd
    rw [List.mem_reverse]
    unfold lookupId
    cases hid : k.idLkp with
    | none => simp
    | some m => exact (mget_ne_none_iff m fd).symm
  · rw [Close_eq _ rfl]
    rfl

theorem Close_teardown_witness :
    ∃ (k' : kqueue) (tbl : List Int),
      Close watchedOnce = .ret none k' ∧
      k'.closed = watchedOnce.fd.toList ++ tbl ++ watchedOnce.closed ∧
      tbl.Nodup ∧ (∀ fd, fd ∈ tbl ↔ lookupId watchedOnce fd ≠ none) ∧
      k'.fd = none ∧ (∀ fd, lookupId k' fd = none) ∧ (∀ p, lookupPth k' p = none) ∧
      k'.idLkp = none ∧ k'.pthLkp = none ∧ k'.locked = false ∧
      Close k' = .ret none k' :=
  Close_teardown watchedOnce rfl watchedOnce_consistent (by decide)

/-! ## `Unwatch` of a watched directory -/

/-- C12, as stated, fails: after `Watch("d", 0x400)` the directory `d` is watched directly
and its children, the subdirectory `s` and the file `f`, indirectly (direct mask `0`).
`Unwatch("d")` with every system call succeeding returns `nil`; the entries of `d` and of
`d/f` are gone, but the subdirectory `d/s`, whose direct mask is `0`, still has its entry:
the closure in `unwatch` skips every child for which `IsDir()` holds. -/
theorem unwatch_keeps_implied_subdirectory :
    entryAt watchedTree "d" = some ⟨"d", 11, true, 0x400, 0⟩ ∧
    entryAt watchedTree "d/s" = some ⟨"d/s", 14, true, 0, 0x400⟩ ∧
    entryAt watchedTree "d/f" = some ⟨"d/f", 16, false, 0, 0x400⟩ ∧
    (Unwatch sampleConsts (dirOS [⟨"s", true⟩, ⟨"f", false⟩]) watchedTree "d").val
      = some none ∧
    ((Unwatch sampleConsts (dirOS [⟨"s", true⟩, ⟨"f", false⟩]) watchedTree "d").state.bind
      (fun k => entryAt k "d")) = none ∧
    ((Unwatch sampleConsts (dirOS [⟨"s", true⟩, ⟨"f", false⟩]) watchedTree "d").state.bind
      (fun k => entryAt k "d/f")) = none ∧
    ((Unwatch sampleConsts (dirOS [⟨"s", true⟩, ⟨"f", false⟩]) watchedTree "d").state.bind
      (fun k => entryAt k "d/s")) = some ⟨"d/s", 14, true, 0, 0x400⟩ ∧
    ((Unwatch sampleConsts (dirOS [⟨"s", true⟩, ⟨"f", false⟩]) watchedTree "d").state.bind
      (fun k => entryOf k 14)) = some ⟨"d/s", 14, true, 0, 0x400⟩ := by
  refine ⟨?_, ?_, ?_, ?_, ?_, ?_, ?_, ?_⟩ <;> decide

/-- C13, the code at the failing input. The directory `d` is watched directly and has no
child in the table; it now lists the file `a`, created since.  `Unwatch("d")` with every
system call succeeding returns `errNotWatched`, which `singleunwatch` reports for the child
`d/a`, and the record of `d` is still in both indexes with its direct mask, its descriptor
not closed. -/
theorem unwatch_dir_fails_on_new_child :
    entryAt watchedDir "d" = some ⟨"d", 4, true, 0x500, 0⟩ ∧
    entryAt watchedDir "d/a" = none ∧
    (Unwatch sampleConsts (okOS 4 true [⟨"a", false⟩]) watchedDir "d").val
      = some (some .notWatched) ∧
    ((Unwatch sampleConsts (okOS 4 true [⟨"a", false⟩]) watchedDir "d").state.bind
      (fun k => entryAt k "d")) = some ⟨"d", 4, true, 0x500, 0⟩ ∧
    ((Unwatch sampleConsts (okOS 4 true [⟨"a", false⟩]) watchedDir "d").state.bind
      (fun k => entryOf k 4)) = some ⟨"d", 4, true, 0x500, 0⟩ ∧
    ((Unwatch sampleConsts (okOS 4 true [⟨"a", false⟩]) watchedDir "d").state.map
      (fun k => k.closed)) = some [] := by
  refine ⟨?_, ?_, ?_, ?_, ?_, ?_⟩ <;> decide

/-! ## A successful `singlewatch` -/

theorem Consistent.pathKeyed {k : kqueue} (hk : Consistent k) : PathKeyed k :=
  ⟨fun q a h => (hk.pth_id q a h).1, hk.bound⟩

theorem PathKeyed.congr {k k' : kqueue} (hk : PathKeyed k) (hp : k'.pthLkp = k.pthLkp)
    (hh : k'.heap = k.heap) (hn : k'.next = k.next) : PathKeyed k' := by
  constructor
  · intro q a ha
    rw [lookupPth_of_eq hp] at ha
    rw [hh]; exact hk.key q a ha
  · intro q a ha
    rw [lookupPth_of_eq hp] at ha
    rw [hn]; exact hk.bound q a ha

theorem Live.of_fields {k k' : kqueue} (hk : Live k) (hf : k'.fd = k.fd) (hi : k'.idLkp = k.idLkp)
    (hp : k'.pthLkp = k.pthLkp) : Live k' := by
  obtain ⟨⟨kq, h1⟩, ⟨im, h2⟩, ⟨pm, h3⟩⟩ := hk
  exact ⟨⟨kq, hf.trans h1⟩, ⟨im, hi.trans h2⟩, ⟨pm, hp.trans h3⟩⟩

theorem singlewatch_ok (c : Consts) (os : OS) (k : kqueue) (q : String) (e : Event)
    (direct dir : Bool) (hk : PathKeyed k) (hl : Live k) (hos : AllOk os) :
    ∃ r k', singlewatch c os k q e direct dir = .ret r k' ∧
      Registered k k' q e direct dir r := by
  obtain ⟨⟨kq, hfd⟩, ⟨im, him⟩, ⟨pm, hpm⟩⟩ := hl
  cases hq : lookupPth k q with
  | some a =>
    refine ⟨_, _, singlewatch_existing c os k q e direct dir a kq hq hfd (hos.kevents _), ?_⟩
    have hstab : ∀ x, (Function.update k.heap a (merge (k.heap a) e direct) x).p = (k.heap x).p ∧
        (Function.update k.heap a (merge (k.heap a) e direct) x).dir = (k.heap x).dir ∧
        (direct = false →
          (Function.update k.heap a (merge (k.heap a) e direct) x).eDir = (k.heap x).eDir) := by
      intro x
      by_cases hx : x = a
      · subst hx
        rw [Function.update_same]
        refine ⟨merge_p _ _ _, ?_, ?_⟩
        · cases direct <;> rfl
        · intro hd; subst hd; rfl
      · rw [Function.update_noteq hx]
        exact ⟨rfl, rfl, fun _ => rfl⟩
    constructor
    · constructor
      · intro q' a' ha'
        have ha'' : lookupPth k q' = some a' := ha'
        show (Function.update k.heap a (merge (k.heap a) e direct) a').p = q'
        rw [(hstab a').1]
        exact hk.key q' a' ha''
      · intro q' a' ha'
        exact hk.bound q' a' ha'
    · exact ⟨⟨kq, hfd⟩, ⟨im, him⟩, ⟨pm, hpm⟩⟩
    · rfl
    · exact Nat.le_refl _
    · intro q' _; rfl
    · intro x _ hx
      show Function.update k.heap a (merge (k.heap a) e direct) x = k.heap x
      rw [Function.update_noteq]
      intro hxa
      apply hx
      rw [hxa]
      exact hq
    · intro x _; exact hstab x
    · intro a' ha'
      rw [hq] at ha'
      injection ha' with ha'
      subst ha'
      refine ⟨rfl, hq, ?_⟩
      show Function.update k.heap a (merge (k.heap a) e direct) a = _
      rw [Function.update_same]
    · intro h; rw [hq] at h; exact Option.noConfusion h
  | none =>
    obtain ⟨fd, ho⟩ := hos.opens k.tick q
    refine ⟨_, _, singlewatch_new c os k q e direct dir fd kq im pm hq ho hfd (hos.kevents _)
      him hpm, ?_⟩
    have hold : ∀ x, x < k.next →
        Function.update k.heap k.next (merge ⟨q, fd, dir, 0, 0⟩ e direct) x = k.heap x := by
      intro x hx
      rw [Function.update_noteq (Nat.ne_of_lt hx)]
    have hlk : ∀ q', lookupPth
        ({ k with
          idLkp := some (mset im fd k.next)
          pthLkp := some (mset pm q k.next)
          heap := Function.update k.heap k.next (merge ⟨q, fd, dir, 0, 0⟩ e direct)
          next := k.next + 1
          tick := k.tick + 1 + 1
          opened := fd :: k.opened
          changes := .add fd (mask c ((merge ⟨q, fd, dir, 0, 0⟩ e direct).eDir |||
            (merge ⟨q, fd, dir, 0, 0⟩ e direct).eNonDir)) :: k.changes } : kqueue) q'
        = if q' = q then some k.next else lookupPth k q' :=
      fun q' => lookupPth_mset hpm rfl q'
    constructor
    · constructor
      · intro q' a' ha'
        rw [hlk] at ha'
        show (Function.update k.heap k.next (merge ⟨q, fd, dir, 0, 0⟩ e direct) a').p = q'
        by_cases hqq : q' = q
        · rw [if_pos hqq] at ha'
          injection ha' with ha'
          subst ha'
          rw [Function.update_same, merge_p, hqq]
        · rw [if_neg hqq] at ha'
          rw [hold a' (hk.bound q' a' ha')]
          exact hk.key q' a' ha'
      · intro q' a' ha'
        rw [hlk] at ha'
        show a' < k.next + 1
        by_cases hqq : q' = q
        · rw [if_pos hqq] at ha'
          injection ha' with ha'
          subst ha'
          exact Nat.lt_succ_self _
        · rw [if_neg hqq] at ha'
          exact Nat.lt_succ_of_lt (hk.bound q' a' ha')
    · exact ⟨⟨kq, hfd⟩, ⟨_, rfl⟩, ⟨_, rfl⟩⟩
    · rfl
    · exact Nat.le_succ _
    · intro q' hqq
      rw [hlk, if_neg hqq]
    · intro x hx _
      exact hold x hx
    · intro x hx
      show (Function.update k.heap k.next (merge ⟨q, fd, dir, 0, 0⟩ e direct) x).p = _ ∧
        (Function.update k.heap k.next (merge ⟨q, fd, dir, 0, 0⟩ e direct) x).dir = _ ∧
        (direct = false →
          (Function.update k.heap k.next (merge ⟨q, fd, dir, 0, 0⟩ e direct) x).eDir = _)
      rw [hold x hx]
      exact ⟨rfl, rfl, fun _ => rfl⟩
    · intro a' ha'; rw [hq] at ha'; exact Option.noConfusion ha'
    · intro _
      refine ⟨rfl, fd, ?_, ?_⟩
      · rw [hlk, if_pos rfl]
      · show Function.update k.heap k.next (merge ⟨q, fd, dir, 0, 0⟩ e direct) k.next = _
        rw [Function.update_same]

theorem entryAt_eq_none {k : kqueue} {q : String} :
    entryAt k q = none ↔ lookupPth k q = none := by
  unfold entryAt
  cases lookupPth k q <;> simp

theorem entryAt_eq_some {k : kqueue} {q : String} {w : watched} :
    entryAt k q = some w ↔ ∃ a, lookupPth k q = some a ∧ k.heap a = w := by
  unfold entryAt
  cases lookupPth k q <;> simp

theorem entryAt_congr {k k' : kqueue} (hp : k'.pthLkp = k.pthLkp) (hh : k'.heap = k.heap)
    (q : String) : entryAt k' q = entryAt k q := by
  unfold entryAt
  rw [lookupPth_of_eq hp, hh]

theorem Registered.entry_other {k k' : kqueue} {q : String} {e : Event} {direct dir : Bool}
    {r : Option Err} (h : Registered k k' q e direct dir r) (hk : PathKeyed k) (q' : String)
    (hq : q' ≠ q) : entryAt k' q' = entryAt k q' := by
  unfold entryAt
  rw [h.others q' hq]
  cases hl : lookupPth k q' with
  | none => rfl
  | some x =>
    have hx : k'.heap x = k.heap x := by
      apply h.heap_same x (hk.bound q' x hl)
      intro hqx
      apply hq
      rw [← hk.key q' x hl, hk.key q x hqx]
    simp [hx]

theorem Registered.entry_old {k k' : kqueue} {q : String} {e : Event} {direct dir : Bool}
    {r : Option Err} (h : Registered k k' q e direct dir r) (w : watched)
    (hw : entryAt k q = some w) :
    r = some .noNewWatch ∧ entryAt k' q = some (merge w e direct) := by
  obtain ⟨a, ha, hwa⟩ := entryAt_eq_some.mp hw
  obtain ⟨hr, hl, hh⟩ := h.old a ha
  refine ⟨hr, entryAt_eq_some.mpr ⟨a, hl, ?_⟩⟩
  rw [hh, hwa]

theorem Registered.entry_new {k k' : kqueue} {q : String} {e : Event} {direct dir : Bool}
    {r : Option Err} (h : Registered k k' q e direct dir r) (hn : entryAt k q = none) :
    r = none ∧ ∃ fd, entryAt k' q = some (merge ⟨q, fd, dir, 0, 0⟩ e direct) := by
  obtain ⟨hr, fd, hl, hh⟩ := h.new (entryAt_eq_none.mp hn)
  exact ⟨hr, fd, entryAt_eq_some.mpr ⟨k.next, hl, hh⟩⟩

theorem Registered.ret_cases {k k' : kqueue} {q : String} {e : Event} {direct dir : Bool}
    {r : Option Err} (h : Registered k k' q e direct dir r) :
    (r = none ∧ lookupPth k q = none) ∨ (r = some .noNewWatch ∧ lookupPth k q ≠ none) := by
  cases hl : lookupPth k q with
  | none => exact Or.inl ⟨(h.new hl).1, rfl⟩
  | some a => exact Or.inr ⟨(h.old a hl).1, by simp⟩

theorem ChildrenRegistered.nil {k : kqueue} (hk : PathKeyed k) (hl : Live k) (P : String)
    (e : Event) : ChildrenRegistered k k P e [] :=
  ⟨hk, hl, rfl, Nat.le_refl _, fun _ _ => ⟨rfl, rfl, rfl⟩, fun _ _ => rfl,
    fun fi hfi => by simp at hfi, fun fi hfi => by simp at hfi⟩

theorem ChildrenRegistered.cons {k k1 k' : kqueue} {P : String} {e : Event} {fi : FileInfo}
    {rest : List FileInfo} {r : Option Err} (hk : PathKeyed k)
    (h1 : Registered k k1 (join P fi.name) e false fi.isDir r)
    (h2 : ChildrenRegistered k1 k' P e rest)
    (hnot : ∀ fi' ∈ rest, join P fi.name ≠ join P fi'.name) :
    ChildrenRegistered k k' P e (fi :: rest) := by
  have hhead : entryAt k' (join P fi.name) = entryAt k1 (join P fi.name) :=
    h2.frame _ hnot
  have htail : ∀ fi' ∈ rest, entryAt k1 (join P fi'.name) = entryAt k (join P fi'.name) :=
    fun fi' hfi' => h1.entry_other hk _ (fun h => hnot fi' hfi' h.symm)
  constructor
  · exact h2.keyed
  · exact h2.live
  · rw [h2.locked, h1.locked]
  · exact Nat.le_trans h1.next_le h2.next_le
  · intro x hx
    obtain ⟨a1, a2, a3⟩ := h1.stable x hx
    obtain ⟨b1, b2, b3⟩ := h2.stable x (Nat.lt_of_lt_of_le hx h1.next_le)
    exact ⟨b1.trans a1, b2.trans a2, b3.trans (a3 rfl)⟩
  · intro q hq
    rw [h2.frame q (fun fi' hfi' => hq fi' (List.mem_cons_of_mem _ hfi')),
      h1.entry_other hk q (hq fi (List.mem_cons_self _ _))]
  · intro fi' hfi' hnone
    rcases List.mem_cons.mp hfi' with heq | hin
    · subst heq
      obtain ⟨_, fd, hfd⟩ := h1.entry_new hnone
      exact ⟨fd, hhead.trans hfd⟩
    · apply h2.fresh fi' hin
      rw [htail fi' hin]
      exact hnone
  · intro fi' hfi' w hw
    rcases List.mem_cons.mp hfi' with heq | hin
    · subst heq
      rw [hhead]
      exact (h1.entry_old w hw).2
    · apply h2.known fi' hin
      rw [htail fi' hin]
      exact hw

/-! ## `Watch` on a directory -/

theorem or_and_self (x e : Nat) : (x ||| e) &&& e = e := by
  apply and_eq_self_of_sub
  intro i hi
  rw [Nat.testBit_or, hi, Bool.or_true]

theorem nodup_head_ne {P : String} {fi : FileInfo} {rest : List FileInfo}
    (hnd : ((fi :: rest).map (fun fi => join P fi.name)).Nodup) :
    ∀ fi' ∈ rest, join P fi.name ≠ join P fi'.name := by
  intro fi' hfi' heq
  rw [List.map_cons, List.nodup_cons] at hnd
  apply hnd.1
  rw [heq]
  exact List.mem_map.mpr ⟨fi', hfi', rfl⟩

theorem watchLoop_ok (c : Consts) (os : OS) (p : String) (e : Event) (hos : AllOk os) :
    ∀ (ls : List FileInfo) (k : kqueue), PathKeyed k → Live k →
      (ls.map (fun fi => join p fi.name)).Nodup →
      ∃ k', walkLoop (fun k2 fi =>
          match singlewatch c os k2 (join p fi.name) e false fi.isDir with
          | .ret (some err) k3 =>
            if err ≠ .noNewWatch then .ret (some err) k3 else .ret none k3
          | r => r) k ls = .ret none k' ∧
        ChildrenRegistered k k' p e ls := by
  intro ls
  induction ls with
  | nil =>
    intro k hk hl _
    exact ⟨k, rfl, ChildrenRegistered.nil hk hl p e⟩
  | cons fi rest ih =>
    intro k hk hl hnd
    obtain ⟨r, k1, hsw, hreg⟩ := singlewatch_ok c os k (join p fi.name) e false fi.isDir hk hl hos
    have hnd' : (rest.map (fun fi => join p fi.name)).Nodup := by
      rw [List.map_cons, List.nodup_cons] at hnd
      exact hnd.2
    obtain ⟨k', hloop, hch⟩ := ih k1 hreg.keyed hreg.live hnd'
    refine ⟨k', ?_, ChildrenRegistered.cons hk hreg hch (nodup_head_ne hnd)⟩
    unfold walkLoop
    rw [hsw]
    rcases hreg.ret_cases with ⟨hr, _⟩ | ⟨hr, _⟩
    · subst hr
      exact hloop
    · subst hr
      simp only [ne_eq, not_true_eq_false, if_false]
      exact hloop

/-- C11. `Watch` on a directory registers its immediate children as implied watches: for a
watcher that is not closed, with the lock free and a path index keyed by path, a directory
`p`, a mask `e` and a listing `ls` that names each child once and `p` itself not at all,
with every system call succeeding, `Watch(p, e)` returns `nil`; afterwards `p` has an entry whose direct mask
includes `e`, every child `c` of `ls` has an entry for `join(p, c)` whose indirect mask
includes `e` (and whose directory flag is that of the child when the entry is new), and every
path that is neither `p` nor such a child has the entry it had before, or none. -/
theorem Watch_dir_registers_children (c : Consts) (os : OS) (k : kqueue) (p : String)
    (e : Event) (ls : List FileInfo) (hk : PathKeyed k) (hl : Live k)
    (hlock : k.locked = false) (hos : AllOk os) (hstat : os.stat k.tick p = .ok true)
    (hrd : ∀ t, os.readdir t p = .ok ls)
    (hnd : (ls.map (fun fi => join p fi.name)).Nodup)
    (hself : ∀ fi ∈ ls, join p fi.name ≠ p) :
    ∃ k', Watch c os k p e = .ret none k' ∧ k'.locked = false ∧
      (∃ w, entryAt k' p = some w ∧ w.eDir &&& e = e ∧ (entryAt k p = none → w.dir = true)) ∧
      (∀ fi ∈ ls, ∃ w, entryAt k' (join p fi.name) = some w ∧ w.eNonDir &&& e = e ∧
        (entryAt k (join p fi.name) = none → w.dir = fi.isDir)) ∧
      (∀ q, q ≠ p → (∀ fi ∈ ls, q ≠ join p fi.name) → entryAt k' q = entryAt k q) := by
  have hk1 : PathKeyed { k with tick := k.tick + 1, locked := true } := hk.congr rfl rfl rfl
  have hl1 : Live { k with tick := k.tick + 1, locked := true } := hl.of_fields rfl rfl rfl
  obtain ⟨r, k2, hsw, hreg⟩ := singlewatch_ok c os _ p e true true hk1 hl1 hos
  have hk2 : PathKeyed { k2 with tick := k2.tick + 1 } := hreg.keyed.congr rfl rfl rfl
  have hl2 : Live { k2 with tick := k2.tick + 1 } := hreg.live.of_fields rfl rfl rfl
  obtain ⟨k3, hloop, hch⟩ := watchLoop_ok c os p e hos ls _ hk2 hl2 hnd
  have hent1 : ∀ q, entryAt { k with tick := k.tick + 1, locked := true } q = entryAt k q :=
    fun q => entryAt_congr rfl rfl q
  have hent2 : ∀ q, entryAt { k2 with tick := k2.tick + 1 } q = entryAt k2 q :=
    fun q => entryAt_congr rfl rfl q
  have hent3 : ∀ q, entryAt { k3 with locked := false } q = entryAt k3 q :=
    fun q => entryAt_congr rfl rfl q
  have hpne : ∀ fi ∈ ls, p ≠ join p fi.name := fun fi hfi h => hself fi hfi h.symm
  refine ⟨{ k3 with locked := false }, ?_, rfl, ?_, ?_, ?_⟩
  · unfold Watch
    rw [hstat]
    dsimp only
    rw [hlock, if_neg (by simp)]
    unfold watch
    dsimp only
    rw [hsw]
    have hwalk : walk os k2 p (fun k2 fi =>
        match singlewatch c os k2 (join p fi.name) e false fi.isDir with
        | .ret (some err) k3 =>
          if err ≠ .noNewWatch then .ret (some err) k3 else .ret none k3
        | r => r) = .ret none k3 := by
      unfold walk
      rw [hrd]
      exact hloop
    rcases hreg.ret_cases with ⟨hr, _⟩ | ⟨hr, _⟩
    · subst hr
      dsimp only
      rw [if_pos rfl, hwalk]
    · subst hr
      dsimp only
      rw [if_neg (by simp), if_pos rfl, hwalk]
  · rw [hent3, hch.frame p hpne, hent2]
    cases hp : entryAt k p with
    | none =>
      obtain ⟨_, fd, hfd⟩ := hreg.entry_new (by rw [hent1]; exact hp)
      refine ⟨_, hfd, ?_, fun _ => rfl⟩
      show (0 ||| e) &&& e = e
      exact or_and_self 0 e
    | some w =>
      obtain ⟨_, hw⟩ := hreg.entry_old w (by rw [hent1]; exact hp)
      refine ⟨_, hw, ?_, fun h => Option.noConfusion h⟩
      show (w.eDir ||| e) &&& e = e
      exact or_and_self _ e
  · intro fi hfi
    rw [hent3]
    have hsame : entryAt { k2 with tick := k2.tick + 1 } (join p fi.name)
        = entryAt k (join p fi.name) := by
      rw [hent2, hreg.entry_other hk1 _ (hself fi hfi), hent1]
    cases hq : entryAt k (join p fi.name) with
    | none =>
      obtain ⟨fd, hfd⟩ := hch.fresh fi hfi (by rw [hsame]; exact hq)
      refine ⟨_, hfd, ?_, fun _ => rfl⟩
      show (0 ||| e) &&& e = e
      exact or_and_self 0 e
    | some w =>
      have hw := hch.known fi hfi w (by rw [hsame]; exact hq)
      refine ⟨_, hw, ?_, fun h => Option.noConfusion h⟩
      show (w.eNonDir ||| e) &&& e = e
      exact or_and_self _ e
  · intro q hqp hq
    rw [hent3, hch.frame q hq, hent2, hreg.entry_other hk1 q hqp, hent1]

theorem k0_live : Live k0 := ⟨⟨3, rfl⟩, ⟨[], rfl⟩, ⟨[], rfl⟩⟩

theorem dirOS_allOk (ls : List FileInfo) : AllOk (dirOS ls) :=
  ⟨fun _ _ => ⟨_, rfl⟩, fun _ => rfl⟩

theorem Watch_dir_registers_children_witness :
    ∃ k', Watch sampleConsts (dirOS [⟨"s", true⟩, ⟨"f", false⟩]) k0 "d" 0x400 = .ret none k' ∧
      k'.locked = false ∧
      (∃ w, entryAt k' "d" = some w ∧ w.eDir &&& 0x400 = 0x400 ∧
        (entryAt k0 "d" = none → w.dir = true)) ∧
      (∀ fi ∈ [(⟨"s", true⟩ : FileInfo), ⟨"f", false⟩],
        ∃ w, entryAt k' (join "d" fi.name) = some w ∧ w.eNonDir &&& 0x400 = 0x400 ∧
        (entryAt k0 (join "d" fi.name) = none → w.dir = fi.isDir)) ∧
      (∀ q, q ≠ "d" → (∀ fi ∈ [(⟨"s", true⟩ : FileInfo), ⟨"f", false⟩], q ≠ join "d" fi.name) →
        entryAt k' q = entryAt k0 q) :=
  Watch_dir_registers_children sampleConsts (dirOS [⟨"s", true⟩, ⟨"f", false⟩]) k0 "d" 0x400
    [⟨"s", true⟩, ⟨"f", false⟩] k0_consistent.pathKeyed k0_live rfl (dirOS_allOk _) rfl
    (fun _ => rfl) (by decide) (by decide)

/-! ## The pass of `monitor` over a directory -/

theorem createEvents_congr (c : Consts) (k k1 : kqueue) (P : String) (E : Event)
    (ls : List FileInfo)
    (h : ∀ fi ∈ ls, lookupPth k1 (join P fi.name) = lookupPth k (join P fi.name)) :
    createEvents c k1 P E ls = createEvents c k P E ls := by
  unfold createEvents
  have hf : ls.filter (fun fi => (lookupPth k1 (join P fi.name)).isNone)
      = ls.filter (fun fi => (lookupPth k (join P fi.name)).isNone) := by
    apply List.filter_congr
    intro fi hfi
    rw [h fi hfi]
  rw [hf]

theorem createEvents_cons_known (c : Consts) (k : kqueue) (P : String) (E : Event)
    (fi : FileInfo) (rest : List FileInfo) (h : lookupPth k (join P fi.name) ≠ none) :
    createEvents c k P E (fi :: rest) = createEvents c k P E rest := by
  unfold createEvents
  have hb : (lookupPth k (join P fi.name)).isNone = false := by
    cases hl : lookupPth k (join P fi.name) with
    | none => exact absurd hl h
    | some a => rfl
  rw [List.filter_cons, hb]
  rfl

theorem createEvents_cons_new (c : Consts) (k : kqueue) (P : String) (E : Event)
    (fi : FileInfo) (rest : List FileInfo) (h : lookupPth k (join P fi.name) = none)
    (hE : E &&& c.Create ≠ 0) :
    createEvents c k P E (fi :: rest)
      = ⟨fi.isDir, join P fi.name, c.Create, none⟩ :: createEvents c k P E rest := by
  unfold createEvents
  rw [if_pos hE, if_pos hE, List.filter_cons, h]
  rfl

theorem createEvents_of_not (c : Consts) (k : kqueue) (P : String) (E : Event)
    (ls : List FileInfo) (hE : ¬ E &&& c.Create ≠ 0) : createEvents c k P E ls = [] := by
  unfold createEvents
  rw [if_neg hE]

theorem monitorLoop_ok (c : Consts) (os : OS) (a : Nat) (P : String) (E : Event)
    (hos : AllOk os) :
    ∀ (ls : List FileInfo) (k : kqueue) (evn : List event), PathKeyed k → Live k →
      a < k.next → (k.heap a).p = P → (k.heap a).eDir = E →
      (ls.map (fun fi => join P fi.name)).Nodup →
      ∃ k', walkLoopEvn (monitorChild c os a) k evn ls
          = .ret (none, evn ++ createEvents c k P E ls) k' ∧
        ChildrenRegistered k k' P E ls := by
  intro ls
  induction ls with
  | nil =>
    intro k evn hk hl _ _ _ _
    refine ⟨k, ?_, ChildrenRegistered.nil hk hl P E⟩
    have h0 : createEvents c k P E [] = [] := by
      unfold createEvents
      split <;> rfl
    rw [h0, List.append_nil]
    rfl
  | cons fi rest ih =>
    intro k evn hk hl ha hP hE hnd
    obtain ⟨r, k1, hsw, hreg⟩ :=
      singlewatch_ok c os k (join P fi.name) E false fi.isDir hk hl hos
    have hnd' : (rest.map (fun fi => join P fi.name)).Nodup := by
      rw [List.map_cons, List.nodup_cons] at hnd
      exact hnd.2
    have hne := nodup_head_ne hnd
    obtain ⟨hP1, _, hE1⟩ := hreg.stable a ha
    have hE1' : (k1.heap a).eDir = E := (hE1 rfl).trans hE
    have hcongr : createEvents c k1 P E rest = createEvents c k P E rest :=
      createEvents_congr c k k1 P E rest
        (fun fi' hfi' => hreg.others _ (fun h => hne fi' hfi' h.symm))
    have hstep : walkLoopEvn (monitorChild c os a) k evn (fi :: rest)
        = (match monitorChild c os a k evn fi with
          | .ret (none, evn1) k1 => walkLoopEvn (monitorChild c os a) k1 evn1 rest
          | r => r) := rfl
    rcases hreg.ret_cases with ⟨hr, hnew⟩ | ⟨hr, hold⟩
    · subst hr
      by_cases hc : E &&& c.Create ≠ 0
      · obtain ⟨k', hloop, hch⟩ :=
          ih k1 (evn ++ [⟨fi.isDir, join P fi.name, c.Create, none⟩]) hreg.keyed hreg.live
            (Nat.lt_of_lt_of_le ha hreg.next_le) (hP1.trans hP) hE1' hnd'
        refine ⟨k', ?_, ChildrenRegistered.cons hk hreg hch hne⟩
        have hchild : monitorChild c os a k evn fi
            = .ret (none, evn ++ [⟨fi.isDir, join P fi.name, c.Create, none⟩]) k1 := by
          unfold monitorChild
          dsimp only
          rw [hP, hE, hsw]
          dsimp only
          rw [hE1', if_pos hc]
        rw [hstep, hchild]
        dsimp only
        rw [hloop, hcongr, createEvents_cons_new c k P E fi rest hnew hc, List.append_assoc]
        rfl
      · obtain ⟨k', hloop, hch⟩ :=
          ih k1 evn hreg.keyed hreg.live
            (Nat.lt_of_lt_of_le ha hreg.next_le) (hP1.trans hP) hE1' hnd'
        refine ⟨k', ?_, ChildrenRegistered.cons hk hreg hch hne⟩
        have hchild : monitorChild c os a k evn fi = .ret (none, evn) k1 := by
          unfold monitorChild
          dsimp only
          rw [hP, hE, hsw]
          dsimp only
          rw [hE1', if_neg hc]
        rw [hstep, hchild]
        dsimp only
        rw [hloop, createEvents_of_not c k1 P E rest hc,
          createEvents_of_not c k P E (fi :: rest) hc]
    · subst hr
      obtain ⟨k', hloop, hch⟩ :=
        ih k1 evn hreg.keyed hreg.live
          (Nat.lt_of_lt_of_le ha hreg.next_le) (hP1.trans hP) hE1' hnd'
      refine ⟨k', ?_, ChildrenRegistered.cons hk hreg hch hne⟩
      have hchild : monitorChild c os a k evn fi = .ret (none, evn) k1 := by
        unfold monitorChild
        dsimp only
        rw [hP, hE, hsw]
        dsimp only
        rw [if_neg (by simp)]
      rw [hstep, hchild]
      dsimp only
      rw [hloop, hcongr, createEvents_cons_known c k P E fi rest hold]

theorem monitor_dir_write (c : Consts) (os : OS) (k : kqueue) (ident : Int) (fflags : Nat)
    (a : Nat) (ls : List FileInfo) (hk : Consistent k) (hl : Live k)
    (hlock : k.locked = false) (hos : AllOk os) (ha : lookupId k ident = some a)
    (hdir : (k.heap a).dir = true) (hw : fflags &&& c.NOTE_WRITE ≠ 0)
    (hnd : ¬ fflags &&& c.NOTE_DELETE ≠ 0) (hrd : os.readdir k.tick (k.heap a).p = .ok ls)
    (hnodup : (ls.map (fun fi => join (k.heap a).p fi.name)).Nodup) :
    ∃ k', monitorIter c os k (.ok (some (ident, fflags)))
        = .ret (createEvents c k (k.heap a).p (k.heap a).eDir ls) k' ∧
      k'.locked = false ∧
      (∀ fi ∈ ls, entryAt k (join (k.heap a).p fi.name) = none →
        ∃ fd, entryAt k' (join (k.heap a).p fi.name)
          = some ⟨join (k.heap a).p fi.name, fd, fi.isDir, 0, (k.heap a).eDir⟩) ∧
      (∀ fi ∈ ls, ∀ w, entryAt k (join (k.heap a).p fi.name) = some w →
        entryAt k' (join (k.heap a).p fi.name) = some (merge w (k.heap a).eDir false)) ∧
      (∀ q, (∀ fi ∈ ls, q ≠ join (k.heap a).p fi.name) → entryAt k' q = entryAt k q) := by
  obtain ⟨kq, hfd⟩ := hl.fd
  have hbound : a < k.next := hk.bound _ a (hk.id_pth ident a ha).2
  have hk1 : PathKeyed { k with locked := true, tick := k.tick + 1 } :=
    hk.pathKeyed.congr rfl rfl rfl
  have hl1 : Live { k with locked := true, tick := k.tick + 1 } := hl.of_fields rfl rfl rfl
  obtain ⟨k2, hloop, hch⟩ := monitorLoop_ok c os a (k.heap a).p (k.heap a).eDir hos ls
    { k with locked := true, tick := k.tick + 1 } [] hk1 hl1 hbound rfl rfl hnodup
  have hev : createEvents c { k with locked := true, tick := k.tick + 1 } (k.heap a).p
      (k.heap a).eDir ls = createEvents c k (k.heap a).p (k.heap a).eDir ls :=
    createEvents_congr c k _ _ _ ls (fun _ _ => rfl)
  rw [List.nil_append, hev] at hloop
  have hent1 : ∀ q, entryAt { k with locked := true, tick := k.tick + 1 } q = entryAt k q :=
    fun q => entryAt_congr rfl rfl q
  have hent2 : ∀ q, entryAt { k2 with locked := false } q = entryAt k2 q :=
    fun q => entryAt_congr rfl rfl q
  refine ⟨{ k2 with locked := false }, ?_, rfl, ?_, ?_, ?_⟩
  · unfold monitorIter
    rw [hfd]
    dsimp only
    rw [hlock, if_neg (by simp)]
    have hlk : lookupId { k with fd := some kq, locked := true } ident = some a := ha
    rw [hlk]
    dsimp only
    rw [hdir, if_pos rfl, if_neg hnd, if_pos hw]
    have hwalk : walkEvn os { k with fd := some kq, locked := true } (k.heap a).p []
        (monitorChild c os a) = .ret (none, createEvents c k (k.heap a).p (k.heap a).eDir ls)
          k2 := by
      unfold walkEvn
      dsimp only
      rw [hrd]
      dsimp only
      rw [← hloop, ← hfd]
    rw [hwalk]
    dsimp only
    unfold monitorEnd
    dsimp only
    rw [if_neg hnd]
  · intro fi hfi hnone
    obtain ⟨fd, hfdn⟩ := hch.fresh fi hfi (by rw [hent1]; exact hnone)
    refine ⟨fd, ?_⟩
    rw [hent2, hfdn]
    simp [merge]
  · intro fi hfi w hw'
    rw [hent2]
    exact hch.known fi hfi w (by rw [hent1]; exact hw')
  · intro q hq
    rw [hent2, hch.frame q hq, hent1]

theorem watchedDir_live : Live watchedDir := ⟨⟨3, rfl⟩, ⟨_, rfl⟩, ⟨_, rfl⟩⟩

/-- C15. `Create` synthesis for a directly watched directory: for a consistent table of a
watcher that is not closed and whose lock is free, a directory record `w` stored under
descriptor `ident` whose direct mask holds `Create`, flags with `NOTE_WRITE` and without
`NOTE_DELETE`, and a listing `ls` that names each child once, with every system call
succeeding, one iteration of `monitor` queues exactly the events
`(isDir, join(w.p, name), Create, nil)` of the children of `ls` that had no entry before, in
the order of the listing, and no other event; it ends with the lock free, every child of
`ls` has an entry afterwards, and a child that is new has a new record with the directory
flag of the child. -/
theorem monitor_dir_create (c : Consts) (os : OS) (k : kqueue) (ident : Int) (fflags : Nat)
    (a : Nat) (ls : List FileInfo) (hk : Consistent k) (hl : Live k)
    (hlock : k.locked = false) (hos : AllOk os) (ha : lookupId k ident = some a)
    (hdir : (k.heap a).dir = true) (hcreate : (k.heap a).eDir &&& c.Create ≠ 0)
    (hw : fflags &&& c.NOTE_WRITE ≠ 0) (hnd : fflags &&& c.NOTE_DELETE = 0)
    (hrd : os.readdir k.tick (k.heap a).p = .ok ls)
    (hnodup : (ls.map (fun fi => join (k.heap a).p fi.name)).Nodup) :
    ∃ k', monitorIter c os k (.ok (some (ident, fflags)))
        = .ret ((ls.filter (fun fi => (lookupPth k (join (k.heap a).p fi.name)).isNone)).map
            (fun fi => ⟨fi.isDir, join (k.heap a).p fi.name, c.Create, none⟩)) k' ∧
      k'.locked = false ∧
      (∀ fi ∈ ls, entryAt k' (join (k.heap a).p fi.name) ≠ none) ∧
      (∀ fi ∈ ls, lookupPth k (join (k.heap a).p fi.name) = none →
        ∃ fd, entryAt k' (join (k.heap a).p fi.name)
          = some ⟨join (k.heap a).p fi.name, fd, fi.isDir, 0, (k.heap a).eDir⟩) := by
  obtain ⟨k', hrun, hlk, hfresh, hknown, _⟩ :=
    monitor_dir_write c os k ident fflags a ls hk hl hlock hos ha hdir hw
      (fun h => h hnd) hrd hnodup
  refine ⟨k', ?_, hlk, ?_, ?_⟩
  · rw [hrun]
    unfold createEvents
    rw [if_pos hcreate]
  · intro fi hfi
    cases hq : entryAt k (join (k.heap a).p fi.name) with
    | none =>
      obtain ⟨fd, hfd⟩ := hfresh fi hfi hq
      rw [hfd]
      exact fun h => Option.noConfusion h
    | some w =>
      rw [hknown fi hfi w hq]
      exact fun h => Option.noConfusion h
  · intro fi hfi hnone
    exact hfresh fi hfi (entryAt_eq_none.mpr hnone)

theorem monitor_dir_create_witness :
    ∃ k', monitorIter sampleConsts (dirOS [⟨"a", false⟩, ⟨"b", true⟩]) watchedDir
          (.ok (some (4, 0x2)))
        = .ret (([(⟨"a", false⟩ : FileInfo), ⟨"b", true⟩].filter
              (fun fi => (lookupPth watchedDir (join (watchedDir.heap 0).p fi.name)).isNone)).map
            (fun fi => ⟨fi.isDir, join (watchedDir.heap 0).p fi.name, sampleConsts.Create,
              none⟩)) k' ∧
      k'.locked = false ∧
      (∀ fi ∈ [(⟨"a", false⟩ : FileInfo), ⟨"b", true⟩],
        entryAt k' (join (watchedDir.heap 0).p fi.name) ≠ none) ∧
      (∀ fi ∈ [(⟨"a", false⟩ : FileInfo), ⟨"b", true⟩],
        lookupPth watchedDir (join (watchedDir.heap 0).p fi.name) = none →
        ∃ fd, entryAt k' (join (watchedDir.heap 0).p fi.name)
          = some ⟨join (watchedDir.heap 0).p fi.name, fd, fi.isDir, 0,
              (watchedDir.heap 0).eDir⟩) :=
  monitor_dir_create sampleConsts (dirOS [⟨"a", false⟩, ⟨"b", true⟩]) watchedDir 4 0x2 0
    [⟨"a", false⟩, ⟨"b", true⟩] watchedDir_consistent watchedDir_live rfl (dirOS_allOk _)
    (by decide) (by decide) (by decide) (by decide) (by decide) rfl (by decide)

/-- C16, as stated, fails: after `Watch("d", 0x500)` the subdirectory `d/s` is watched only
as an implied child, with `eDir = 0` and `eNonDir = 0x500`, which holds `Create`.  A
notification with `NOTE_WRITE` for its descriptor `14`, when `d/s` lists the new file `n`,
registers `d/s/n` with the indirect mask `0`, not `0x500`, and queues no event: the pass of
`monitor` uses the direct mask `w.eDir` of the directory. -/
theorem monitor_implied_dir_uses_direct_mask :
    entryOf watchedSub 14 = some ⟨"d/s", 14, true, 0, 0x500⟩ ∧
    entryAt watchedSub "d/s/n" = none ∧
    (monitorIter sampleConsts (dirOS [⟨"n", false⟩]) watchedSub (.ok (some (14, 0x2)))).val
      = some [] ∧
    ((monitorIter sampleConsts (dirOS [⟨"n", false⟩]) watchedSub
        (.ok (some (14, 0x2)))).state.bind (fun k => entryAt k "d/s/n"))
      = some ⟨"d/s/n", 17, false, 0, 0⟩ := by
  refine ⟨?_, ?_, ?_, ?_⟩ <;> decide

/-- C16, amended. The pass of `monitor` uses the direct mask of the directory: for a
consistent table of a watcher that is not closed and whose lock is free, a directory record
`w` stored under descriptor `ident`, flags with `NOTE_WRITE` and without `NOTE_DELETE`, and a
listing `ls` that names each child once, with every system call succeeding, one iteration
of `monitor` registers every child of `ls` that had no entry with a new record whose
indirect mask equals the direct mask `w.eDir`, and queues a `Create` event for it exactly
when `w.eDir` holds `Create`; a directory with `w.eDir = 0`, watched only as an implied
child, queues no event. -/
theorem monitor_dir_child_mask (c : Consts) (os : OS) (k : kqueue) (ident : Int)
    (fflags : Nat) (a : Nat) (ls : List FileInfo) (hk : Consistent k) (hl : Live k)
    (hlock : k.locked = false) (hos : AllOk os) (ha : lookupId k ident = some a)
    (hdir : (k.heap a).dir = true) (hw : fflags &&& c.NOTE_WRITE ≠ 0)
    (hnd : fflags &&& c.NOTE_DELETE = 0) (hrd : os.readdir k.tick (k.heap a).p = .ok ls)
    (hnodup : (ls.map (fun fi => join (k.heap a).p fi.name)).Nodup) :
    ∃ (k' : kqueue) (evn : List event),
      monitorIter c os k (.ok (some (ident, fflags))) = .ret evn k' ∧
      (∀ fi ∈ ls, lookupPth k (join (k.heap a).p fi.name) = none →
        (∃ fd, entryAt k' (join (k.heap a).p fi.name)
          = some ⟨join (k.heap a).p fi.name, fd, fi.isDir, 0, (k.heap a).eDir⟩) ∧
        ((⟨fi.isDir, join (k.heap a).p fi.name, c.Create, none⟩ : event) ∈ evn ↔
          (k.heap a).eDir &&& c.Create ≠ 0)) ∧
      ((k.heap a).eDir = 0 → evn = []) := by
  obtain ⟨k', hrun, _, hfresh, _, _⟩ :=
    monitor_dir_write c os k ident fflags a ls hk hl hlock hos ha hdir hw
      (fun h => h hnd) hrd hnodup
  refine ⟨k', _, hrun, ?_, ?_⟩
  · intro fi hfi hnone
    refine ⟨hfresh fi hfi (entryAt_eq_none.mpr hnone), ?_⟩
    by_cases hc : (k.heap a).eDir &&& c.Create ≠ 0
    · unfold createEvents
      rw [if_pos hc]
      constructor
      · intro _; exact hc
      · intro _
        apply List.mem_map.mpr
        refine ⟨fi, List.mem_filter.mpr ⟨hfi, ?_⟩, rfl⟩
        rw [hnone]
        rfl
    · rw [createEvents_of_not c k _ _ ls hc]
      constructor
      · intro h; simp at h
      · intro h; exact absurd h hc
  · intro h0
    apply createEvents_of_not
    rw [h0, Nat.zero_and]
    simp

theorem monitor_dir_child_mask_witness :
    ∃ (k' : kqueue) (evn : List event),
      monitorIter sampleConsts (dirOS [⟨"n", false⟩]) watchedDir (.ok (some (4, 0x2)))
        = .ret evn k' ∧
      (∀ fi ∈ [(⟨"n", false⟩ : FileInfo)],
        lookupPth watchedDir (join (watchedDir.heap 0).p fi.name) = none →
        (∃ fd, entryAt k' (join (watchedDir.heap 0).p fi.name)
          = some ⟨join (watchedDir.heap 0).p fi.name, fd, fi.isDir, 0,
              (watchedDir.heap 0).eDir⟩) ∧
        ((⟨fi.isDir, join (watchedDir.heap 0).p fi.name, sampleConsts.Create, none⟩ : event)
            ∈ evn ↔ (watchedDir.heap 0).eDir &&& sampleConsts.Create ≠ 0)) ∧
      ((watchedDir.heap 0).eDir = 0 → evn = []) :=
  monitor_dir_child_mask sampleConsts (dirOS [⟨"n", false⟩]) watchedDir 4 0x2 0
    [⟨"n", false⟩] watchedDir_consistent watchedDir_live rfl (dirOS_allOk _)
    (by decide) (by decide) (by decide) (by decide) rfl (by decide)

/-! ## `Unwatch` of a directory whose children are in the table -/

theorem singleunwatch_ok (c : Consts) (os : OS) (k : kqueue) (q : String) (direct : Bool)
    (a : Nat) (kq : Int) (hk : Consistent k) (hfd : k.fd = some kq)
    (hkev : os.sysKevent k.tick = none) (ha : lookupPth k q = some a) :
    ∃ k', singleunwatch c os k q direct = .ret none k' ∧ Consistent k' ∧ k'.fd = k.fd ∧
      k'.locked = k.locked ∧ lookupPth k' q = none ∧
      (∀ q', q' ≠ q → entryAt k' q' = entryAt k q') := by
  have hrun : ∃ k', singleunwatch c os k q direct = .ret none k' ∧ k'.fd = k.fd ∧
      k'.locked = k.locked := by
    unfold singleunwatch
    rw [ha]
    dsimp only
    rw [hfd]
    dsimp only
    rw [hkev]
    dsimp only
    rw [if_neg (by rw [clearMask_and]; simp)]
    exact ⟨_, rfl, rfl, rfl⟩
  obtain ⟨k', hk', hfd', hlock'⟩ := hrun
  have hq : (k.heap a).p = q := (hk.pth_id q a ha).1
  refine ⟨k', hk', singleunwatch_consistent c os k k' q direct none hk hk', hfd', hlock', ?_, ?_⟩
  · rcases singleunwatch_cases c os k k' q direct none hk' with
      ⟨hnone, _, _⟩ | ⟨a', ha', _, _, hrest⟩
    · rw [hnone] at ha; exact Option.noConfusion ha
    · rw [ha] at ha'
      injection ha' with ha'
      subst ha'
      rcases hrest with ⟨_, _, n, hn⟩ | ⟨_, _, _, hp⟩
      · exact Option.noConfusion hn
      · rw [lookupPth_mdel hp, hq, if_pos rfl]
  · intro q' hq'
    rcases singleunwatch_cases c os k k' q direct none hk' with
      ⟨hnone, _, _⟩ | ⟨a', ha', _, hh, hrest⟩
    · rw [hnone] at ha; exact Option.noConfusion ha
    · rw [ha] at ha'
      injection ha' with ha'
      subst ha'
      rcases hrest with ⟨_, _, n, hn⟩ | ⟨_, _, _, hp⟩
      · exact Option.noConfusion hn
      · unfold entryAt
        rw [lookupPth_mdel hp, hq, if_neg hq']
        cases hl : lookupPth k q' with
        | none => rfl
        | some x =>
          have hx : x ≠ a := by
            intro hxa
            apply hq'
            rw [← (hk.pth_id q' x hl).1, hxa, hq]
          simp [hh, Function.update_noteq hx]

theorem Consistent.retime {k : kqueue} (hk : Consistent k) (t : Nat) (l : Bool) :
    Consistent { k with tick := t, locked := l } :=
  hk.of_same rfl rfl (Nat.le_refl _) (fun _ _ => ⟨rfl, rfl⟩)

theorem unwatchLoop_ok (c : Consts) (os : OS) (p : String)
    (hkev : ∀ t, os.sysKevent t = none) :
    ∀ (ls : List FileInfo) (k : kqueue), Consistent k → (∃ kq, k.fd = some kq) →
      (∀ fi ∈ ls, fi.isDir = false → lookupPth k (join p fi.name) ≠ none) →
      (ls.map (fun fi => join p fi.name)).Nodup →
      ∃ k', walkLoop (fun k1 fi =>
          if !fi.isDir then singleunwatch c os k1 (join p fi.name) false else .ret none k1) k ls
          = .ret none k' ∧
        Consistent k' ∧ k'.fd = k.fd ∧ k'.locked = k.locked ∧
        (∀ fi ∈ ls, fi.isDir = false → lookupPth k' (join p fi.name) = none) ∧
        (∀ q, (∀ fi ∈ ls, fi.isDir = false → q ≠ join p fi.name) →
          entryAt k' q = entryAt k q) := by
  intro ls
  induction ls with
  | nil =>
    intro k hk _ _ _
    exact ⟨k, rfl, hk, rfl, rfl, fun fi hfi => by simp at hfi, fun _ _ => rfl⟩
  | cons fi rest ih =>
    intro k hk hfd hch hnd
    have hnd' : (rest.map (fun fi => join p fi.name)).Nodup := by
      rw [List.map_cons, List.nodup_cons] at hnd
      exact hnd.2
    have hne := nodup_head_ne hnd
    cases hd : fi.isDir with
    | true =>
      obtain ⟨k', hloop, hc', hfd', hl', hgone, hframe⟩ :=
        ih k hk hfd (fun fi' hfi' => hch fi' (List.mem_cons_of_mem _ hfi')) hnd'
      refine ⟨k', ?_, hc', hfd', hl', ?_, ?_⟩
      · unfold walkLoop
        rw [hd]
        simp only [Bool.not_true, Bool.false_eq_true, if_false]
        exact hloop
      · intro fi' hfi' hfile
        rcases List.mem_cons.mp hfi' with heq | hin
        · rw [heq, hd] at hfile; exact Bool.noConfusion hfile
        · exact hgone fi' hin hfile
      · intro q hq
        exact hframe q (fun fi' hfi' => hq fi' (List.mem_cons_of_mem _ hfi'))
    | false =>
      obtain ⟨kq, hkq⟩ := hfd
      cases hl : lookupPth k (join p fi.name) with
      | none => exact absurd hl (hch fi (List.mem_cons_self _ _) hd)
      | some a =>
        obtain ⟨k1, hrun, hc1, hfd1, hl1, hgone1, hframe1⟩ :=
          singleunwatch_ok c os k (join p fi.name) false a kq hk hkq (hkev _) hl
        have hch1 : ∀ fi' ∈ rest, fi'.isDir = false → lookupPth k1 (join p fi'.name) ≠ none := by
          intro fi' hfi' hfile hnone
          have h1 := hframe1 (join p fi'.name) (fun h => hne fi' hfi' h.symm)
          rw [entryAt_eq_none.mpr hnone] at h1
          exact hch fi' (List.mem_cons_of_mem _ hfi') hfile (entryAt_eq_none.mp h1.symm)
        obtain ⟨k', hloop, hc', hfd', hl', hgone, hframe⟩ :=
          ih k1 hc1 ⟨kq, hfd1.trans hkq⟩ hch1 hnd'
        refine ⟨k', ?_, hc', hfd'.trans hfd1, hl'.trans hl1, ?_, ?_⟩
        · unfold walkLoop
          rw [hd]
          simp only [Bool.not_false, if_true]
          rw [hrun]
          exact hloop
        · intro fi' hfi' hfile
          rcases List.mem_cons.mp hfi' with heq | hin
          · rw [heq]
            apply entryAt_eq_none.mp
            rw [hframe (join p fi.name) (fun fi'' hfi'' _ => hne fi'' hfi'')]
            exact entryAt_eq_none.mpr hgone1
          · exact hgone fi' hin hfile
        · intro q hq
          rw [hframe q (fun fi' hfi' => hq fi' (List.mem_cons_of_mem _ hfi')),
            hframe1 q (hq fi (List.mem_cons_self _ _) hd)]

theorem watchedPair_eq :
    singlewatch sampleConsts (dirOS []) watchedDir "d/f" 0x400 false false
      = .ret none watchedPair := rfl

theorem watchedPair_consistent : Consistent watchedPair :=
  singlewatch_consistent sampleConsts (dirOS []) watchedDir watchedPair "d/f" 0x400 false false
    none watchedDir_consistent
    (fun fd h => by
      have h' : (12 : Int) = fd := by
        injection h
      subst h'
      decide)
    watchedPair_eq

/-- C12, amended. `Unwatch` of a directory and its file children: for a consistent table of a
watcher that is not closed and whose lock is free, a directory `p` that has an entry, and a
listing `ls` that names each child once, `p` itself not at all, and whose children that are
not directories all have entries, with every system call succeeding, `Unwatch(p)` returns `nil`; afterwards every
listed child that is not a directory and whose direct mask was `0` has no entry left, in
either index, and every listed child that is a directory has the entry it had before,
unchanged. -/
theorem Unwatch_dir_children (c : Consts) (os : OS) (k : kqueue) (p : String)
    (ls : List FileInfo) (hk : Consistent k) (hfd : ∃ kq, k.fd = some kq)
    (hlock : k.locked = false) (hkev : ∀ t, os.sysKevent t = none)
    (hstat : os.stat k.tick p = .ok true) (hrd : os.readdir (k.tick + 1) p = .ok ls)
    (hp : lookupPth k p ≠ none)
    (hch : ∀ fi ∈ ls, fi.isDir = false → lookupPth k (join p fi.name) ≠ none)
    (hnd : (ls.map (fun fi => join p fi.name)).Nodup)
    (hself : ∀ fi ∈ ls, join p fi.name ≠ p) :
    ∃ k', Unwatch c os k p = .ret none k' ∧ k'.locked = false ∧
      (∀ fi ∈ ls, fi.isDir = false → ∀ w, entryAt k (join p fi.name) = some w → w.eDir = 0 →
        lookupPth k' (join p fi.name) = none ∧
        ∀ fd x, lookupId k' fd = some x → (k'.heap x).p ≠ join p fi.name) ∧
      (∀ fi ∈ ls, fi.isDir = true → entryAt k' (join p fi.name) = entryAt k (join p fi.name)) := by
  obtain ⟨kq, hkq⟩ := hfd
  have hk1 : Consistent { k with tick := k.tick + 1 + 1, locked := true } := hk.retime _ _
  obtain ⟨k2, hloop, hc2, hfd2, hl2, hgone, hframe⟩ :=
    unwatchLoop_ok c os p hkev ls { k with tick := k.tick + 1 + 1, locked := true } hk1
      ⟨kq, hkq⟩ hch hnd
  have hent1 : ∀ q, entryAt { k with tick := k.tick + 1 + 1, locked := true } q = entryAt k q :=
    fun q => entryAt_congr rfl rfl q
  have hp2 : entryAt k2 p = entryAt k p := by
    rw [hframe p (fun fi hfi _ h => hself fi hfi h.symm), hent1]
  cases hlp : lookupPth k2 p with
  | none =>
    rw [entryAt_eq_none.mpr hlp] at hp2
    exact absurd (entryAt_eq_none.mp hp2.symm) hp
  | some ap =>
    obtain ⟨k3, hrun3, hc3, _, _, _, hframe3⟩ :=
      singleunwatch_ok c os k2 p true ap kq hc2 (hfd2.trans hkq) (hkev _) hlp
    have hcf : Consistent { k3 with locked := false } :=
      hc3.of_same rfl rfl (Nat.le_refl _) (fun _ _ => ⟨rfl, rfl⟩)
    have hent3 : ∀ q, entryAt { k3 with locked := false } q = entryAt k3 q :=
      fun q => entryAt_congr rfl rfl q
    refine ⟨{ k3 with locked := false }, ?_, rfl, ?_, ?_⟩
    · unfold Unwatch
      rw [hstat]
      dsimp only
      rw [hlock, if_neg (by simp)]
      unfold unwatch
      rw [if_pos rfl]
      unfold walk
      dsimp only
      rw [hrd]
      dsimp only
      rw [hloop]
      dsimp only
      rw [hrun3]
    · intro fi hfi hfile w _ _
      have hnone : lookupPth { k3 with locked := false } (join p fi.name) = none := by
        apply entryAt_eq_none.mp
        rw [hent3, hframe3 _ (hself fi hfi)]
        exact entryAt_eq_none.mpr (hgone fi hfi hfile)
      refine ⟨hnone, ?_⟩
      intro fd x hx hpx
      have := (hcf.id_pth fd x hx).2
      rw [hpx, hnone] at this
      exact Option.noConfusion this
    · intro fi hfi hdir
      rw [hent3, hframe3 _ (hself fi hfi), hframe, hent1]
      intro fi' hfi' hfile heq
      have := List.inj_on_of_nodup_map hnd hfi hfi' heq
      rw [this, hfile] at hdir
      exact Bool.noConfusion hdir

theorem Unwatch_dir_children_witness :
    ∃ k', Unwatch sampleConsts (dirOS [⟨"f", false⟩, ⟨"s", true⟩]) watchedPair "d"
        = .ret none k' ∧ k'.locked = false ∧
      (∀ fi ∈ [(⟨"f", false⟩ : FileInfo), ⟨"s", true⟩], fi.isDir = false →
        ∀ w, entryAt watchedPair (join "d" fi.name) = some w → w.eDir = 0 →
        lookupPth k' (join "d" fi.name) = none ∧
        ∀ fd x, lookupId k' fd = some x → (k'.heap x).p ≠ join "d" fi.name) ∧
      (∀ fi ∈ [(⟨"f", false⟩ : FileInfo), ⟨"s", true⟩], fi.isDir = true →
        entryAt k' (join "d" fi.name) = entryAt watchedPair (join "d" fi.name)) :=
  Unwatch_dir_children sampleConsts (dirOS [⟨"f", false⟩, ⟨"s", true⟩]) watchedPair "d"
    [⟨"f", false⟩, ⟨"s", true⟩] watchedPair_consistent ⟨3, rfl⟩ rfl (fun _ => rfl) rfl rfl
    (by decide) (by decide) (by decide) (by decide)

/-! ## `filepath.Join` on some paths -/

theorem join_values :
    join "d" "a" = "d/a" ∧ join "/" "a" = "/a" ∧ join "." "a" = "a" ∧ join "d/" "a" = "d/a" ∧
    join "d//s/." "n" = "d/s/n" ∧ join "a/b" ".." = "a" ∧ join "a" "../.." = ".." ∧
    join "/" ".." = "/" ∧ join "" "" = "" ∧ join "" "a//b/./c/" = "a/b/c" ∧
    join "a" "" = "a" ∧ join "../x" "../../y" = "../../y" ∧
    Clean "" = "." ∧ Clean "/" = "/" ∧ Clean "a/.." = "." := by
  decide

end Kqueue
